import Mathlib

/-!
Verification development for the streaming tool-call detector / relay /
finalizer of `src/edge-functions/api/edgeai/chat.ts` and for the diagram
document operation engine invoked from `src/components/chat-panel.tsx`.

Strings are modelled as `List Char`.  Machine-level concerns (UTF-8 chunk
decoding, SSE byte encoding) are modelled at the character level.  The
per-session identifiers (`toolCallId`, `textId`, `reasoningId`) are
constants for the lifetime of a session and are therefore omitted from the
event records.
-/

namespace S2P

abbrev Str := List Char

/-- JavaScript whitespace as used by `String.trim` and the regex class
backslash-s, restricted to the ASCII range (the Unicode space characters
also matched by JavaScript never occur in this development). -/
def isJsSpace (c : Char) : Bool :=
  c = ' ' || c = '\t' || c = '\n' || c = '\x0d' || c = '\x0b' || c = '\x0c'

/-- JSON (RFC 8259) insignificant whitespace, as skipped by JSON.parse. -/
def isJsonWs (c : Char) : Bool :=
  c = ' ' || c = '\t' || c = '\n' || c = '\x0d'

/-- JavaScript `String.prototype.trim` (ASCII whitespace; see isJsSpace). -/
def jsTrim (s : Str) : Str :=
  ((s.dropWhile isJsSpace).reverse.dropWhile isJsSpace).reverse

def skipJsonWs (s : Str) : Str := s.dropWhile isJsonWs

/-- JavaScript `s.split("\n")`: always returns at least one (possibly
empty) segment; the last segment is the text after the final newline. -/
def splitOnNl : Str → List Str
  | [] => [[]]
  | c :: r =>
    if c = '\n' then [] :: splitOnNl r
    else
      match splitOnNl r with
      | [] => [[c]]
      | h :: t => (c :: h) :: t

/-- First index at which pat occurs as a contiguous substring of s
(JavaScript `s.indexOf(pat)` for a nonempty pat). -/
def indexOfSub? (pat : Str) : Str → Option Nat
  | [] => if pat = [] then some 0 else none
  | c :: r =>
    if pat.isPrefixOf (c :: r) then some 0
    else (indexOfSub? pat r).map (· + 1)

/-- JavaScript `s.includes(pat)`. -/
def containsSub (pat s : Str) : Bool := (indexOfSub? pat s).isSome

/-- Largest index at which pat occurs in s (JavaScript `s.lastIndexOf`),
as an option instead of the sentinel -1: an occurrence further right
shadows any occurrence at the current position. -/
def lastIndexOfSub? (pat : Str) : Str → Option Nat
  | [] => if pat.isPrefixOf [] then some 0 else none
  | c :: r =>
    match lastIndexOfSub? pat r with
    | some j => some (j + 1)
    | none => if pat.isPrefixOf (c :: r) then some 0 else none

/-- JavaScript global `replace` of a fixed nonempty pattern: scan left to
right, replacements are not rescanned. -/
def replaceAllSub (pat repl : Str) : Nat → Str → Str
  | 0, s => s
  | _ + 1, [] => []
  | fuel + 1, c :: r =>
    if pat.isPrefixOf (c :: r) ∧ pat ≠ [] then
      repl ++ replaceAllSub pat repl fuel ((c :: r).drop pat.length)
    else
      c :: replaceAllSub pat repl fuel r

def replaceAll (pat repl s : Str) : Str := replaceAllSub pat repl s.length s

/-! ## JSON values and a model of JSON.parse -/

/-- JSON values.  Numbers keep their source lexeme: none of the verified
code inspects numeric magnitudes beyond zero-ness. -/
inductive Json where
  | null : Json
  | bool (b : Bool) : Json
  | num (lexeme : Str) : Json
  | str (s : Str) : Json
  | arr (items : List Json) : Json
  | obj (fields : List (Str × Json)) : Json
deriving Repr, Inhabited

def hexVal? (c : Char) : Option Nat :=
  if '0' ≤ c ∧ c ≤ '9' then some (c.toNat - '0'.toNat)
  else if 'a' ≤ c ∧ c ≤ 'f' then some (c.toNat - 'a'.toNat + 10)
  else if 'A' ≤ c ∧ c ≤ 'F' then some (c.toNat - 'A'.toNat + 10)
  else none

def consStrRes (c : Char) (o : Option (Str × Str)) : Option (Str × Str) :=
  o.map (fun p => (c :: p.1, p.2))

/-- Body of a JSON string after the opening quote.  Returns the decoded
characters and the remaining input after the closing quote.  A backslash-u
escape that does not denote a valid scalar value (a lone surrogate) is
mapped by `Char.ofNat` to the zero character, a simplification of the
JavaScript lone-surrogate semantics that is never exercised here. -/
def parseJsonString : Nat → Str → Option (Str × Str)
  | 0, _ => none
  | _ + 1, [] => none
  | _ + 1, '"' :: r => some ([], r)
  | fuel + 1, '\\' :: r =>
    match r with
    | '"' :: r2 => consStrRes '"' (parseJsonString fuel r2)
    | '\\' :: r2 => consStrRes '\\' (parseJsonString fuel r2)
    | '/' :: r2 => consStrRes '/' (parseJsonString fuel r2)
    | 'b' :: r2 => consStrRes '\x08' (parseJsonString fuel r2)
    | 'f' :: r2 => consStrRes '\x0c' (parseJsonString fuel r2)
    | 'n' :: r2 => consStrRes '\n' (parseJsonString fuel r2)
    | 'r' :: r2 => consStrRes '\x0d' (parseJsonString fuel r2)
    | 't' :: r2 => consStrRes '\t' (parseJsonString fuel r2)
    | 'u' :: h1 :: h2 :: h3 :: h4 :: r2 =>
      match hexVal? h1, hexVal? h2, hexVal? h3, hexVal? h4 with
      | some a, some b, some c, some d =>
        consStrRes (Char.ofNat (((a * 16 + b) * 16 + c) * 16 + d)) (parseJsonString fuel r2)
      | _, _, _, _ => none
    | _ => none
  | fuel + 1, c :: r =>
    if c.toNat < 32 then none else consStrRes c (parseJsonString fuel r)

def isDigitCh (c : Char) : Bool := '0' ≤ c ∧ c ≤ '9'

/-- JSON number grammar; returns the lexeme and the rest of the input. -/
def parseJsonNumber (s : Str) : Option (Json × Str) :=
  let (sign, s1) := match s with
    | '-' :: r => (['-'], r)
    | _ => (([] : Str), s)
  match s1 with
  | c :: r =>
    if isDigitCh c then
      let (intDigits, r1) :=
        if c = '0' then ([c], r)
        else (c :: r.takeWhile isDigitCh, r.dropWhile isDigitCh)
      let (fracPart, r2) :=
        match r1 with
        | '.' :: d :: rf =>
          if isDigitCh d then
            ('.' :: d :: rf.takeWhile isDigitCh, rf.dropWhile isDigitCh)
          else (([] : Str), r1)
        | _ => (([] : Str), r1)
      let (expPart, r3) :=
        match r2 with
        | e :: re =>
          if e = 'e' ∨ e = 'E' then
            let (esign, re2) := match re with
              | '+' :: rr => (['+'], rr)
              | '-' :: rr => (['-'], rr)
              | _ => (([] : Str), re)
            match re2 with
            | d :: rd =>
              if isDigitCh d then
                (e :: (esign ++ d :: rd.takeWhile isDigitCh), rd.dropWhile isDigitCh)
              else (([] : Str), r2)
            | [] => (([] : Str), r2)
          else (([] : Str), r2)
        | [] => (([] : Str), r2)
      if expPart = [] ∧ r2 ≠ r3 then none
      else some (Json.num (sign ++ intDigits ++ fracPart ++ expPart), r3)
    else none
  | [] => none

mutual

def parseJsonValue : Nat → Str → Option (Json × Str)
  | 0, _ => none
  | fuel + 1, s =>
    match s with
    | 'n' :: 'u' :: 'l' :: 'l' :: r => some (Json.null, r)
    | 't' :: 'r' :: 'u' :: 'e' :: r => some (Json.bool true, r)
    | 'f' :: 'a' :: 'l' :: 's' :: 'e' :: r => some (Json.bool false, r)
    | '"' :: r =>
      match parseJsonString (r.length + 1) r with
      | some (cs, rest) => some (Json.str cs, rest)
      | none => none
    | '[' :: r =>
      match skipJsonWs r with
      | ']' :: r2 => some (Json.arr [], r2)
      | r1 => parseJsonItems fuel r1 []
    | '\x7b' :: r =>
      match skipJsonWs r with
      | '\x7d' :: r2 => some (Json.obj [], r2)
      | r1 => parseJsonMembers fuel r1 []
    | _ => parseJsonNumber s

def parseJsonItems : Nat → Str → List Json → Option (Json × Str)
  | 0, _, _ => none
  | fuel + 1, s, acc =>
    match parseJsonValue fuel (skipJsonWs s) with
    | some (v, rest) =>
      match skipJsonWs rest with
      | ',' :: r2 => parseJsonItems fuel r2 (acc ++ [v])
      | ']' :: r2 => some (Json.arr (acc ++ [v]), r2)
      | _ => none
    | none => none

def parseJsonMembers : Nat → Str → List (Str × Json) → Option (Json × Str)
  | 0, _, _ => none
  | fuel + 1, s, acc =>
    match skipJsonWs s with
    | '"' :: r =>
      match parseJsonString (r.length + 1) r with
      | some (key, rest) =>
        match skipJsonWs rest with
        | ':' :: r2 =>
          match parseJsonValue fuel (skipJsonWs r2) with
          | some (v, r3) =>
            match skipJsonWs r3 with
            | ',' :: r4 => parseJsonMembers fuel r4 (acc ++ [(key, v)])
            | '\x7d' :: r4 => some (Json.obj (acc ++ [(key, v)]), r4)
            | _ => none
          | none => none
        | _ => none
      | none => none
    | _ => none

end

/-- Model of `JSON.parse`: a single JSON value with optional surrounding
whitespace; anything else is a parse failure (an exception in the code). -/
def jsonParse? (s : Str) : Option Json :=
  match parseJsonValue (s.length + 1) (skipJsonWs s) with
  | some (v, rest) => if skipJsonWs rest = [] then some v else none
  | none => none

/-- Property lookup on a parsed value: objects yield the last binding of
the key (JSON.parse keeps the last duplicate); everything else yields the
JavaScript undefined, modelled as none. -/
def jsGetField (j : Json) (key : Str) : Option Json :=
  match j with
  | Json.obj fs => (fs.reverse.find? (fun kv => kv.1 = key)).map (fun kv => kv.2)
  | _ => none

/-- Indexing `x[0]` as used for `choices?.[0]`: first array element, or an
object property named "0".  Strings are modelled as having no index
properties; the resulting delta would be a one-character string whose
`content` and `reasoning_content` lookups are undefined either way, so the
session outcome is unchanged. -/
def jsIndexZero (j : Json) : Option Json :=
  match j with
  | Json.arr (x :: _) => some x
  | Json.obj _ => jsGetField j ['0']
  | _ => none

/-- Zero test of a JSON number lexeme (its mantissa digits are all 0). -/
def numLexIsZero (lex : Str) : Bool :=
  ((lex.takeWhile (fun c => ¬ (c = 'e' ∨ c = 'E'))).filter isDigitCh).all (· = '0')

/-- JavaScript truthiness of a parsed JSON value. -/
def jsTruthy (j : Json) : Bool :=
  match j with
  | Json.null => false
  | Json.bool b => b
  | Json.num lex => ¬ numLexIsZero lex
  | Json.str s => ¬ s.isEmpty
  | Json.arr _ => true
  | Json.obj _ => true

/-! ## The UI event stream and the session state of transformToUIStream -/

inductive ToolName where
  | display_diagram : ToolName
  | edit_diagram : ToolName
deriving Repr, DecidableEq

/-- The input field of a tool-input-available event: for display_diagram
an object with an xml field, for edit_diagram one with an operations
field.  none models the JavaScript undefined resulting from a missing
field on the parsed tool call. -/
inductive ToolInput where
  | renderXml (xml : Option Json) : ToolInput
  | editOps (operations : Option Json) : ToolInput
deriving Repr

inductive UiEvent where
  | start : UiEvent
  | reasoningStart : UiEvent
  | reasoningDelta (delta : Str) : UiEvent
  | reasoningEnd : UiEvent
  | textStart : UiEvent
  | textDelta (delta : Str) : UiEvent
  | textEnd : UiEvent
  | toolInputStart (toolName : ToolName) : UiEvent
  | toolInputDelta (inputTextDelta : Str) : UiEvent
  | toolInputAvailable (toolName : ToolName) (input : ToolInput) : UiEvent
  | finish (finishReason : Str) : UiEvent
deriving Repr

/-- Mutable session state of transformToUIStream (chat.ts lines 327-337).
The SSE line buffer `sseBuffer` is threaded separately by the network
layer, which is the only code that touches it. -/
structure SessionState where
  fullContent : Str
  pendingBuffer : Str
  toolCallJsonBuffer : Str
  textStarted : Bool
  reasoningStarted : Bool
  toolCallStarted : Bool
  detectedToolName : Option ToolName
deriving Repr, DecidableEq

def initState : SessionState :=
  { fullContent := [], pendingBuffer := [], toolCallJsonBuffer := []
    textStarted := false, reasoningStarted := false, toolCallStarted := false
    detectedToolName := none }

/-- The tool-call search string of chat.ts line 429: the full 7-character
discriminator-key opener including its closing quote. -/
def marker7 : Str := "\x7b\"tool\"".toList

def displayName : Str := "display_diagram".toList
def editName : Str := "edit_diagram".toList

/-- The quoted discriminator key searched for by detectToolName. -/
def toolKeyQuoted : Str := "\"tool\"".toList

/-- Match of the regex quoted-tool colon quoted-name at the head of s,
with backslash-s-star around the colon (chat.ts lines 351-353). -/
def matchToolRegexAt (s : Str) : Option ToolName :=
  match s with
  | '"' :: 't' :: 'o' :: 'o' :: 'l' :: '"' :: r =>
    match (r.dropWhile isJsSpace) with
    | ':' :: r2 =>
      match (r2.dropWhile isJsSpace) with
      | '"' :: r3 =>
        if (displayName ++ ['"']).isPrefixOf r3 then some ToolName.display_diagram
        else if (editName ++ ['"']).isPrefixOf r3 then some ToolName.edit_diagram
        else none
      | _ => none
    | _ => none
  | _ => none

def findToolRegex : Str → Option ToolName
  | [] => none
  | c :: r =>
    match matchToolRegexAt (c :: r) with
    | some n => some n
    | none => findToolRegex r

/-- detectToolName (chat.ts lines 348-364): first the anchored regex over
all positions, then the looser substring fallback. -/
def detectToolName (content : Str) : Option ToolName :=
  match findToolRegex content with
  | some n => some n
  | none =>
    if containsSub toolKeyQuoted content ∧ containsSub displayName content then
      some ToolName.display_diagram
    else if containsSub toolKeyQuoted content ∧ containsSub editName content then
      some ToolName.edit_diagram
    else none

/-- The partial marker patterns of chat.ts lines 496-503, in source
order (shortest first; the scan keeps the first suffix match). -/
def markerPieces : List Str :=
  [marker7.take 1, marker7.take 2, marker7.take 3,
   marker7.take 4, marker7.take 5, marker7.take 6]

/-- keepFromIndex computation of chat.ts lines 504-512. -/
def keepFrom (pb : Str) : Nat :=
  match markerPieces.find? (fun p => p.isSuffixOf pb) with
  | some p => pb.length - p.length
  | none => pb.length

/-- Handling of a regular content delta (chat.ts lines 409-537). -/
def processContentDelta (st : SessionState) (content : Str) : SessionState × List UiEvent :=
  let st := { st with fullContent := st.fullContent ++ content }
  if st.toolCallStarted then
    ({ st with toolCallJsonBuffer := st.toolCallJsonBuffer ++ content },
     [UiEvent.toolInputDelta content])
  else
    let pb := st.pendingBuffer ++ content
    match indexOfSub? marker7 pb with
    | some toolJsonStart =>
      let afterToolStart := pb.drop toolJsonStart
      match detectToolName afterToolStart with
      | some toolName =>
        let textBefore := pb.take toolJsonStart
        let emitBefore : Bool := toolJsonStart > 0 ∧ jsTrim textBefore ≠ []
        let evs1 : List UiEvent :=
          if emitBefore then
            (if st.textStarted then [] else [UiEvent.textStart]) ++ [UiEvent.textDelta textBefore]
          else []
        let textStarted1 : Bool := st.textStarted ∨ emitBefore
        let evs2 := evs1 ++ (if textStarted1 then [UiEvent.textEnd] else [])
        ({ st with pendingBuffer := [],
                   toolCallJsonBuffer := afterToolStart,
                   textStarted := false,
                   toolCallStarted := true,
                   detectedToolName := some toolName },
         evs2 ++ [UiEvent.toolInputStart toolName, UiEvent.toolInputDelta afterToolStart])
      | none =>
        ({ st with pendingBuffer := pb }, [])
    | none =>
      let keepFromIndex := keepFrom pb
      if keepFromIndex > 0 then
        let safeText := pb.take keepFromIndex
        let emit : Bool := jsTrim safeText ≠ []
        let evs : List UiEvent :=
          if emit then
            (if st.textStarted then [] else [UiEvent.textStart]) ++ [UiEvent.textDelta safeText]
          else []
        ({ st with pendingBuffer := pb.drop keepFromIndex,
                   textStarted := st.textStarted ∨ emit },
         evs)
      else
        ({ st with pendingBuffer := pb }, [])

/-- Handling of a reasoning_content delta (chat.ts lines 386-406). -/
def processReasoningDelta (st : SessionState) (text : Str) : SessionState × List UiEvent :=
  if text ≠ [] ∧ jsTrim text ≠ [] then
    if st.reasoningStarted then (st, [UiEvent.reasoningDelta text])
    else ({ st with reasoningStarted := true },
          [UiEvent.reasoningStart, UiEvent.reasoningDelta text])
  else (st, [])

def doneSentinel : Str := "[DONE]".toList

def contentKey : Str := "content".toList
def reasoningKey : Str := "reasoning_content".toList
def choicesKey : Str := "choices".toList

/-- Extraction of choices-index-0-delta with optional chaining.  When the
parsed value is JSON null the property access throws in JavaScript; the
exception is caught with no state mutated and no chunk emitted, which
coincides with the absent-delta outcome, so both are modelled as none. -/
def extractDelta (parsed : Json) : Option Json :=
  match jsGetField parsed choicesKey with
  | some choices =>
    match jsIndexZero choices with
    | some first => jsGetField first "delta".toList
    | none => none
  | none => none

/-- Outcome of the reasoning_content block: either events (with an updated
state), or an exception thrown by calling trim on a truthy non-string
value, which aborts the line with whatever was already collected
(nothing, at that point in the code). -/
inductive ReasoningOutcome where
  | thrown : ReasoningOutcome
  | ok (st : SessionState) (evs : List UiEvent) : ReasoningOutcome

def handleReasoningField (st : SessionState) (delta : Json) : ReasoningOutcome :=
  match jsGetField delta reasoningKey with
  | none => ReasoningOutcome.ok st []
  | some v =>
    if jsTruthy v then
      match v with
      | Json.str s =>
        let r := processReasoningDelta st s
        ReasoningOutcome.ok r.1 r.2
      | _ => ReasoningOutcome.thrown
    else ReasoningOutcome.ok st []

/-- The content field of a delta record.  The source declares the delta
shape as content and reasoning_content optional strings (chat.ts lines
373-379); only string-valued fields are extracted accordingly. -/
def strField (delta : Json) (key : Str) : Option Str :=
  match jsGetField delta key with
  | some (Json.str s) => some s
  | _ => none

/-- processDataLine (chat.ts lines 367-543): one SSE data payload. -/
def processDataLine (st : SessionState) (data : Str) : SessionState × List UiEvent :=
  if data = doneSentinel then (st, [])
  else
    match jsonParse? data with
    | none => (st, [])
    | some parsed =>
      match extractDelta parsed with
      | none => (st, [])
      | some delta =>
        if jsTruthy delta then
          match handleReasoningField st delta with
          | ReasoningOutcome.thrown => (st, [])
          | ReasoningOutcome.ok st1 evs1 =>
            match strField delta contentKey with
            | some c =>
              if c ≠ [] then
                let r := processContentDelta st1 c
                (r.1, evs1 ++ r.2)
              else (st1, evs1)
            | none => (st1, evs1)
        else (st, [])

/-- Sequential processing of a list of inputs, collecting events. -/
def runSteps {σ α : Type} (f : σ → α → σ × List UiEvent) : σ → List α → σ × List UiEvent
  | st, [] => (st, [])
  | st, x :: xs =>
    let r1 := f st x
    let r2 := runSteps f r1.1 xs
    (r2.1, r1.2 ++ r2.2)

def dataLinePre : Str := "data:".toList

/-- One raw line of the upstream SSE stream (chat.ts lines 659-672). -/
def processLine (st : SessionState) (line : Str) : SessionState × List UiEvent :=
  let trimmedLine := jsTrim line
  if trimmedLine = [] ∨ ¬ dataLinePre.isPrefixOf trimmedLine then (st, [])
  else processDataLine st (jsTrim (trimmedLine.drop 5))

/-- One network read (chat.ts lines 652-673): append to the SSE buffer,
split on newlines, retain the unterminated trailing fragment, process
every complete line. -/
def processNetworkChunk (ns : SessionState × Str) (chunk : Str) : (SessionState × Str) × List UiEvent :=
  let buf := ns.2 ++ chunk
  let ls := splitOnNl buf
  let r := runSteps processLine ns.1 ls.dropLast
  ((r.1, ls.getLastD []), r.2)

/-! ## parseToolCall (chat.ts lines 692-748) -/

/-- Whether the tool-call regex (open brace, anything, quoted tool key,
anything, close brace) can begin at index i of s. -/
def toolMatchFromB (s : Str) (i : Nat) : Bool :=
  decide (s.drop i ≠ []) && (s.drop i).headI = '\x7b' &&
  ((List.range s.length).any (fun q =>
    i + 1 ≤ q && toolKeyQuoted.isPrefixOf (s.drop q) &&
    ((List.range s.length).any (fun r =>
      q + 6 ≤ r && (s.drop r).headI = '\x7d' && decide (s.drop r ≠ [])))))

/-- Leftmost start of a match of the tool-call regex. -/
def firstToolMatchStart? (s : Str) : Option Nat :=
  (List.range s.length).find? (fun i => toolMatchFromB s i)

/-- Greedy end of the match begun at i: the last close brace preceded
somewhere after i by the quoted tool key. -/
def lastBraceFor? (s : Str) (i : Nat) : Option Nat :=
  ((List.range s.length).reverse).find? (fun r =>
    (s.drop r).headI = '\x7d' && decide (s.drop r ≠ []) &&
    ((List.range s.length).any (fun q =>
      i + 1 ≤ q && q + 6 ≤ r && toolKeyQuoted.isPrefixOf (s.drop q))))

/-- The substring matched by the regex open-brace anything quoted-tool-key
anything close-brace, with JavaScript leftmost-then-greedy semantics. -/
def jsonToolMatch? (s : Str) : Option Str :=
  match firstToolMatchStart? s with
  | none => none
  | some i =>
    match lastBraceFor? s i with
    | none => none
    | some r => some ((s.take (r + 1)).drop i)

/-- Number of leading characters satisfying p. -/
def countWhile (p : Char → Bool) : Str → Nat
  | [] => 0
  | c :: r => if p c then countWhile p r + 1 else 0

/-- After the quoted xml key: match backslash-s-star, a colon,
backslash-s-star and an opening quote, returning the number of
characters consumed. -/
def colonQuoteLen? (s : Str) : Option Nat :=
  let n1 := countWhile isJsSpace s
  match s.drop n1 with
  | ':' :: r2 =>
    let n2 := countWhile isJsSpace r2
    (match r2.drop n2 with
     | '"' :: _ => some (n1 + 1 + n2 + 1)
     | _ => none)
  | _ => none

/-- Position just after the first match of the regex quoted-xml-key
colon quote (with backslash-s-star around the colon), scanning from the
head of s; this is the xmlStart of chat.ts lines 702-704. -/
def xmlStartAt : Nat → Str → Option Nat
  | _, [] => none
  | i, '"' :: 'x' :: 'm' :: 'l' :: '"' :: r =>
    (match colonQuoteLen? r with
     | some k => some (i + 5 + k)
     | none => xmlStartAt (i + 1) ('x' :: 'm' :: 'l' :: '"' :: r))
  | i, _ :: r => xmlStartAt (i + 1) r

def findXmlStart? (s : Str) : Option Nat := xmlStartAt 0 s

/-- The operations-array capture of the regex quoted-operations-key colon
bracketed-lazy-group (chat.ts line 733): at the first position where the
key, the colon and an opening bracket appear, the capture extends to the
first closing bracket (the lazy star). -/
def opsArrayAt : Str → Option Str
  | [] => none
  | c :: r =>
    let s := c :: r
    if ("\"operations\"".toList).isPrefixOf s then
      let r1 := (s.drop 12).dropWhile isJsSpace
      match r1 with
      | ':' :: r2 =>
        let r3 := r2.dropWhile isJsSpace
        (match r3 with
         | '[' :: r4 =>
           match indexOfSub? [']'] r4 with
           | some k => some ('[' :: (r4.take k ++ [']']))
           | none => opsArrayAt r
         | _ => opsArrayAt r)
      | _ => opsArrayAt r
    else opsArrayAt r

/-- JavaScript `xml.endsWith('"')` guarded strip of a single trailing
quote (chat.ts lines 714-716). -/
def stripTrailingQuote (s : Str) : Str :=
  if s.getLastD ' ' = '"' ∧ s ≠ [] then s.dropLast else s

/-- The three sequential unescaping replacements of chat.ts lines 718-721:
escaped quote, escaped newline, escaped backslash. -/
def unescapeXml (s : Str) : Str :=
  replaceAll ['\\', '\\'] ['\\']
    (replaceAll ['\\', 'n'] ['\n']
      (replaceAll ['\\', '"'] ['"'] s))

/-- parseToolCall: strict regex-plus-JSON.parse path, then the forgiving
kind-specific recovery, then null.  The strict path returns the parsed
JSON value (the code casts without validating). -/
def parseToolCall (content : Str) : Option Json :=
  match jsonToolMatch? content with
  | none => none
  | some m =>
    match jsonParse? m with
    | some j => some j
    | none =>
      let displayResult : Option Json :=
        if containsSub displayName content then
          match findXmlStart? content with
          | some xmlStart =>
            let xmlEndA := lastIndexOfSub? ['"', '\x7d'] content
            let xmlEnd : Option Nat :=
              match xmlEndA with
              | some e => if e < xmlStart then lastIndexOfSub? ['\x7d'] content else some e
              | none => lastIndexOfSub? ['\x7d'] content
            match xmlEnd with
            | some e =>
              if e > xmlStart then
                let xml0 := (content.take e).drop xmlStart
                let xml1 := stripTrailingQuote xml0
                let xml2 := unescapeXml xml1
                if jsTrim xml2 ≠ [] then
                  some (Json.obj [("tool".toList, Json.str displayName),
                                  ("xml".toList, Json.str xml2)])
                else none
              else none
            | none => none
          | none => none
        else none
      match displayResult with
      | some r => some r
      | none =>
        if containsSub editName content then
          match opsArrayAt content with
          | some arrSlice =>
            match jsonParse? arrSlice with
            | some ops =>
              some (Json.obj [("tool".toList, Json.str editName),
                              ("operations".toList, ops)])
            | none => none
          | none => none
        else none

/-! ## finalizeStream (chat.ts lines 546-622) and the whole session -/

def stopReason : Str := "stop".toList
def errorReason : Str := "error".toList

def inputFromJson (name : ToolName) (j : Json) : ToolInput :=
  match name with
  | ToolName.display_diagram => ToolInput.renderXml (jsGetField j "xml".toList)
  | ToolName.edit_diagram => ToolInput.editOps (jsGetField j "operations".toList)

def emptyInputFor (name : ToolName) : ToolInput :=
  match name with
  | ToolName.display_diagram => ToolInput.renderXml (some (Json.str []))
  | ToolName.edit_diagram => ToolInput.editOps (some (Json.arr []))

def finalizeStream (st : SessionState) : List UiEvent :=
  let evs0 : List UiEvent := if st.reasoningStarted then [UiEvent.reasoningEnd] else []
  let body : List UiEvent :=
    if st.toolCallStarted ∧ st.detectedToolName.isSome then
      match st.detectedToolName with
      | some name =>
        match parseToolCall st.toolCallJsonBuffer with
        | some j => [UiEvent.toolInputAvailable name (inputFromJson name j)]
        | none => [UiEvent.toolInputAvailable name (emptyInputFor name)]
      | none => []
    else if ¬ st.textStarted ∧ st.fullContent ≠ [] then
      if jsTrim st.fullContent ≠ [] then
        [UiEvent.textStart, UiEvent.textDelta st.fullContent, UiEvent.textEnd]
      else []
    else if st.pendingBuffer ≠ [] ∧ ¬ st.toolCallStarted then
      let emit : Bool := jsTrim st.pendingBuffer ≠ []
      let evs1 : List UiEvent :=
        if emit then
          (if st.textStarted then [] else [UiEvent.textStart]) ++ [UiEvent.textDelta st.pendingBuffer]
        else []
      evs1 ++ (if st.textStarted ∨ emit then [UiEvent.textEnd] else [])
    else if st.textStarted then [UiEvent.textEnd]
    else []
  evs0 ++ body ++ [UiEvent.finish stopReason]

/-- A whole streaming session over a list of network chunks: the start
event, the per-chunk events, then the finalizer events. -/
def runSession (chunks : List Str) : SessionState × List UiEvent :=
  let r := runSteps processNetworkChunk (initState, []) chunks
  (r.1.1, UiEvent.start :: (r.2 ++ finalizeStream r.1.1))

/-! ## The transport-failure path of onRequestPost (chat.ts lines 129-183) -/

def limitWord : Str := "limit".toList
def quotaWord : Str := "quota".toList

def isRateLimitMsg (m : Str) : Bool :=
  containsSub limitWord m || containsSub quotaWord m

/-- The synthetic error stream enqueued by the catch block of
onRequestPost, in enqueue order. -/
def edgeErrorEvents (errorMessage : Str) : List UiEvent :=
  let msg : Str :=
    if isRateLimitMsg errorMessage then "LimitError: ".toList ++ errorMessage
    else "Error: ".toList ++ errorMessage
  [UiEvent.start, UiEvent.textStart, UiEvent.textDelta msg, UiEvent.textEnd,
   UiEvent.finish errorReason]

/-- onRequestPost at the streaming boundary: the AI call either yields the
upstream chunks or throws with a message; a throw is caught and converted
into the synthetic error stream, never rethrown. -/
def onRequestPostEvents (ai : Except Str (List Str)) : List UiEvent :=
  match ai with
  | Except.error e => edgeErrorEvents e
  | Except.ok chunks => (runSession chunks).2

/-! ## The Document Operation Engine

The function applyDiagramOperations lives in the lib utils module, which
is not present under src; only its caller (chat-panel.tsx lines 340-402)
is.  It is therefore modelled from the spec (section 4.5). -/

inductive DiagramOpType where
  | update : DiagramOpType
  | add : DiagramOpType
  | delete : DiagramOpType
deriving Repr, DecidableEq

/-- A document node: a unique id and an opaque serialized body (the
engine treats bodies as blobs, spec section 3). -/
structure DiagramCell where
  id : Str
  xml : Str
deriving Repr, DecidableEq

/-- One structural edit operation, shape per chat-panel.tsx lines 341-347. -/
structure DiagramOp where
  type : DiagramOpType
  cell_id : Str
  new_xml : Str
deriving Repr, DecidableEq

/-- Per-operation error record, shape per chat-panel.tsx lines 377-381. -/
structure DiagramOpError where
  type : DiagramOpType
  cellId : Str
  message : Str
deriving Repr, DecidableEq

def notFoundMsg : Str := "not found".toList
def duplicateIdMsg : Str := "duplicate id".toList

/-- Modelled from the spec: one step of applyDiagramOperations (absent
from src).  update requires the target to exist and replaces its body in
place; add requires the id to be fresh and appends; delete requires the
target to exist and removes all matching nodes (spec section 4.5). -/
def applyOneOp (doc : List DiagramCell) (op : DiagramOp) :
    List DiagramCell × Option DiagramOpError :=
  match op.type with
  | DiagramOpType.update =>
    if doc.any (fun c => c.id = op.cell_id) then
      (doc.map (fun c => if c.id = op.cell_id then { c with xml := op.new_xml } else c), none)
    else (doc, some ⟨DiagramOpType.update, op.cell_id, notFoundMsg⟩)
  | DiagramOpType.add =>
    if doc.any (fun c => c.id = op.cell_id) then
      (doc, some ⟨DiagramOpType.add, op.cell_id, duplicateIdMsg⟩)
    else (doc ++ [⟨op.cell_id, op.new_xml⟩], none)
  | DiagramOpType.delete =>
    if doc.any (fun c => c.id = op.cell_id) then
      (doc.filter (fun c => ¬ c.id = op.cell_id), none)
    else (doc, some ⟨DiagramOpType.delete, op.cell_id, notFoundMsg⟩)

/-- Modelled from the spec: applyDiagramOperations (absent from src;
imported from the lib utils module by chat-panel.tsx line 369).
Operations are applied left to right against a working copy; a failing
operation is recorded and skipped without aborting the rest; returns the
resulting document and the collected error list (spec section 4.5). -/
def applyDiagramOperations (doc : List DiagramCell) (ops : List DiagramOp) :
    List DiagramCell × List DiagramOpError :=
  match ops with
  | [] => (doc, [])
  | op :: rest =>
    let r := applyOneOp doc op
    let rr := applyDiagramOperations r.1 rest
    (rr.1, r.2.toList ++ rr.2)

/-! ## Event stream observers -/

def textDeltasOf (evs : List UiEvent) : List Str :=
  evs.filterMap (fun e =>
    match e with
    | UiEvent.textDelta d => some d
    | _ => none)

def toolInputDeltasOf (evs : List UiEvent) : List Str :=
  evs.filterMap (fun e =>
    match e with
    | UiEvent.toolInputDelta d => some d
    | _ => none)

def concatAll (ss : List Str) : Str := ss.foldr (fun a b => a ++ b) []

/-- Whether an event is a narration text-start or text-delta emission. -/
def isTextEmit (e : UiEvent) : Bool :=
  match e with
  | UiEvent.textStart => true
  | UiEvent.textDelta _ => true
  | _ => false

def isToolStartEv (e : UiEvent) : Bool :=
  match e with
  | UiEvent.toolInputStart _ => true
  | _ => false

def hasToolStart (evs : List UiEvent) : Bool := evs.any isToolStartEv

def hasTextEmit (evs : List UiEvent) : Bool := evs.any isTextEmit

/-- Every text-start and text-delta in the list precedes every
tool-input-start. -/
def noTextAfterToolStart : List UiEvent → Bool
  | [] => true
  | UiEvent.toolInputStart _ :: rest => rest.all (fun e => !(isTextEmit e))
  | _ :: rest => noTextAfterToolStart rest

/-! ## C4: empty result on unrecoverable payload -/

/-- C4: whenever a tool call was started and the accumulated payload
buffer defeats both the strict parse and the kind-specific recovery
(parseToolCall returns none), the finalizer emits a tool-input-available
event with an empty input (empty xml string for the render kind, empty
operations list for the edit kind) and closes the session with a finish
event; being a total function it never throws. -/
theorem finalizer_empty_on_unrecoverable (st : SessionState) (name : ToolName)
    (h1 : st.toolCallStarted = true) (h2 : st.detectedToolName = some name)
    (h3 : parseToolCall st.toolCallJsonBuffer = none) :
    finalizeStream st =
      (if st.reasoningStarted then [UiEvent.reasoningEnd] else []) ++
      [UiEvent.toolInputAvailable name (emptyInputFor name),
       UiEvent.finish stopReason] := by
  unfold finalizeStream
  simp [h1, h2, h3]

def c4State : SessionState :=
  { initState with
    toolCallStarted := true,
    detectedToolName := some ToolName.display_diagram,
    toolCallJsonBuffer := "\x7b\"tool\":\"display_diagram\"".toList }

theorem finalizer_empty_on_unrecoverable_witness :
    finalizeStream c4State =
      (if c4State.reasoningStarted then [UiEvent.reasoningEnd] else []) ++
      [UiEvent.toolInputAvailable ToolName.display_diagram
        (emptyInputFor ToolName.display_diagram),
       UiEvent.finish stopReason] :=
  finalizer_empty_on_unrecoverable c4State ToolName.display_diagram rfl rfl rfl

/-! ## C6: transport-failure synthetic event sequence -/

/-- C6: when request handling throws before streaming begins, the handler
returns (never rethrows) exactly the event sequence start, text-start,
text-delta carrying the message, text-end, finish error; the message is
prefixed with LimitError when the error message mentions a limit or quota
condition and with Error otherwise. -/
theorem transport_error_synthetic_sequence (e : Str) :
    onRequestPostEvents (Except.error e) =
      [UiEvent.start, UiEvent.textStart,
       UiEvent.textDelta
         ((if isRateLimitMsg e then "LimitError: ".toList else "Error: ".toList) ++ e),
       UiEvent.textEnd, UiEvent.finish errorReason] := by
  unfold onRequestPostEvents edgeErrorEvents
  by_cases h : isRateLimitMsg e <;> simp [h]

/-! ## C8 and C9: the Document Operation Engine -/

def missingId : Str := "missing-id".toList
def newId : Str := "new-id".toList

/-- C8: applying the list update missing-id then add new-id to a document
containing neither id yields exactly one error (a not-found error for the
update) and a resulting document extending the original with the new
node; the failed update is skipped without aborting the add, and the
original document value is untouched (the engine returns a fresh value).
The engine is modelled from the spec because applyDiagramOperations is
not under src. -/
theorem per_operation_not_per_batch (doc : List DiagramCell) (x y : Str)
    (hm : ∀ c ∈ doc, c.id ≠ missingId)
    (hn : ∀ c ∈ doc, c.id ≠ newId) :
    applyDiagramOperations doc
      [⟨DiagramOpType.update, missingId, x⟩, ⟨DiagramOpType.add, newId, y⟩] =
      (doc ++ [⟨newId, y⟩],
       [⟨DiagramOpType.update, missingId, notFoundMsg⟩]) := by
  have hm' : doc.any (fun c => c.id = missingId) = false := by
    simp only [List.any_eq_false, decide_eq_true_eq]
    exact hm
  have hn' : doc.any (fun c => c.id = newId) = false := by
    simp only [List.any_eq_false, decide_eq_true_eq]
    exact hn
  simp [applyDiagramOperations, applyOneOp, hm', hn']

theorem per_operation_not_per_batch_witness :
    applyDiagramOperations [⟨['a'], ['b']⟩]
      [⟨DiagramOpType.update, missingId, ['x']⟩, ⟨DiagramOpType.add, newId, ['y']⟩] =
      ([⟨['a'], ['b']⟩] ++ [⟨newId, ['y']⟩],
       [⟨DiagramOpType.update, missingId, notFoundMsg⟩]) :=
  per_operation_not_per_batch [⟨['a'], ['b']⟩] ['x'] ['y']
    (by decide) (by decide)

/-- C9: updating the same node twice with the same payload produces the
same document as updating it once, and an empty error list both times.
The engine is modelled from the spec because applyDiagramOperations is
not under src. -/
theorem update_idempotent (doc : List DiagramCell) (i p : Str)
    (h : ∃ c ∈ doc, c.id = i) :
    (applyDiagramOperations doc
        [⟨DiagramOpType.update, i, p⟩, ⟨DiagramOpType.update, i, p⟩]).1 =
      (applyDiagramOperations doc [⟨DiagramOpType.update, i, p⟩]).1 ∧
    (applyDiagramOperations doc [⟨DiagramOpType.update, i, p⟩]).2 = [] ∧
    (applyDiagramOperations doc
        [⟨DiagramOpType.update, i, p⟩, ⟨DiagramOpType.update, i, p⟩]).2 = [] := by
  have hany : doc.any (fun c => c.id = i) = true := by
    simp only [List.any_eq_true, decide_eq_true_eq]
    obtain ⟨c, hc, hi⟩ := h
    exact ⟨c, hc, hi⟩
  have hmap : (doc.map (fun c => if c.id = i then { c with xml := p } else c)).any
      (fun c => c.id = i) = true := by
    rw [List.any_map]
    simp only [List.any_eq_true, Function.comp, decide_eq_true_eq] at hany ⊢
    obtain ⟨c, hc, hi⟩ := hany
    exact ⟨c, hc, by simp [hi]⟩
  have hmm : ∀ c : DiagramCell,
      (fun c => if c.id = i then { c with xml := p } else c)
        ((fun c => if c.id = i then { c with xml := p } else c) c) =
      (fun c => if c.id = i then { c with xml := p } else c) c := by
    intro c
    by_cases hc : c.id = i <;> simp [hc]
  simp only [applyDiagramOperations, applyOneOp, hany, if_true]
  refine ⟨?_, rfl, ?_⟩ <;> simp [hmap, List.map_map, Function.comp, hmm]

def c9Doc : List DiagramCell := [⟨['a'], ['x']⟩, ⟨['b'], ['y']⟩]

/-! ## Shared plumbing lemmas about the step functions -/

theorem concatAll_append (a b : List Str) :
    concatAll (a ++ b) = concatAll a ++ concatAll b := by
  induction a with
  | nil => simp [concatAll]
  | cons x xs ih => simp [concatAll, List.foldr_append] at ih ⊢; simp [ih]

theorem toolInputDeltasOf_append (a b : List UiEvent) :
    toolInputDeltasOf (a ++ b) = toolInputDeltasOf a ++ toolInputDeltasOf b := by
  simp [toolInputDeltasOf, List.filterMap_append]

/-- Frame facts about a reasoning delta: it only touches the reasoning
span and emits only reasoning events. -/
theorem reasoning_step_frame (st : SessionState) (text : Str) :
    (processReasoningDelta st text).1.toolCallJsonBuffer = st.toolCallJsonBuffer ∧
    (processReasoningDelta st text).1.toolCallStarted = st.toolCallStarted ∧
    (processReasoningDelta st text).1.detectedToolName = st.detectedToolName ∧
    (processReasoningDelta st text).1.pendingBuffer = st.pendingBuffer ∧
    (processReasoningDelta st text).1.textStarted = st.textStarted ∧
    toolInputDeltasOf (processReasoningDelta st text).2 = [] ∧
    hasToolStart (processReasoningDelta st text).2 = false ∧
    hasTextEmit (processReasoningDelta st text).2 = false ∧
    noTextAfterToolStart (processReasoningDelta st text).2 = true := by
  unfold processReasoningDelta
  by_cases hne : (text ≠ [] ∧ jsTrim text ≠ []) <;>
    cases hrs : st.reasoningStarted <;>
    simp [hne, hrs, toolInputDeltasOf, hasToolStart, hasTextEmit,
      noTextAfterToolStart, isToolStartEv, isTextEmit]

/-- Frame facts about the reasoning_content block of processDataLine. -/
theorem handleReasoning_frame (st : SessionState) (delta : Json) (st1 : SessionState)
    (evs1 : List UiEvent)
    (h : handleReasoningField st delta = ReasoningOutcome.ok st1 evs1) :
    st1.toolCallJsonBuffer = st.toolCallJsonBuffer ∧
    st1.toolCallStarted = st.toolCallStarted ∧
    st1.detectedToolName = st.detectedToolName ∧
    st1.pendingBuffer = st.pendingBuffer ∧
    st1.textStarted = st.textStarted ∧
    toolInputDeltasOf evs1 = [] ∧
    hasToolStart evs1 = false ∧
    hasTextEmit evs1 = false ∧
    noTextAfterToolStart evs1 = true := by
  unfold handleReasoningField at h
  cases hf : jsGetField delta reasoningKey with
  | none =>
    rw [hf] at h
    cases h
    simp [toolInputDeltasOf, hasToolStart, hasTextEmit, noTextAfterToolStart]
  | some v =>
    rw [hf] at h
    dsimp only at h
    by_cases ht : jsTruthy v = true
    · rw [if_pos ht] at h
      cases v with
      | str s =>
        simp only at h
        cases h
        exact reasoning_step_frame st s
      | null => simp at h
      | bool b => simp at h
      | num l => simp at h
      | arr xs => simp at h
      | obj fs => simp at h
    · rw [if_neg ht] at h
      cases h
      simp [toolInputDeltasOf, hasToolStart, hasTextEmit, noTextAfterToolStart]

/-- Relay invariant: before a tool call starts the payload buffer is
empty. -/
def relayInv (st : SessionState) : Prop :=
  st.toolCallStarted = false → st.toolCallJsonBuffer = []

/-- Relay step contract: one step appends to the payload buffer exactly
the concatenation of the tool-input-delta fragments it emits. -/
def RelayStepOK {σ α : Type} (proj : σ → SessionState)
    (f : σ → α → σ × List UiEvent) : Prop :=
  ∀ s x, relayInv (proj s) →
    (proj (f s x).1).toolCallJsonBuffer
      = (proj s).toolCallJsonBuffer ++ concatAll (toolInputDeltasOf (f s x).2) ∧
    relayInv (proj (f s x).1)

theorem contentDelta_relayOK : RelayStepOK id processContentDelta := by
  intro st c hinv
  simp only [id] at hinv ⊢
  cases hst : st.toolCallStarted with
  | true =>
    simp [processContentDelta, hst, toolInputDeltasOf, concatAll, relayInv]
  | false =>
    have hbuf : st.toolCallJsonBuffer = [] := hinv hst
    simp only [processContentDelta, hst, Bool.false_eq_true, if_false]
    cases hidx : indexOfSub? marker7 (st.pendingBuffer ++ c) with
    | none =>
      by_cases hk : keepFrom (st.pendingBuffer ++ c) > 0
      · by_cases he : jsTrim ((st.pendingBuffer ++ c).take (keepFrom (st.pendingBuffer ++ c))) = [] <;>
          cases hts : st.textStarted <;>
          simp [hk, he, hts, hst, hbuf, toolInputDeltasOf, concatAll, relayInv]
      · simp [hk, hst, hbuf, toolInputDeltasOf, concatAll, relayInv]
    | some i0 =>
      cases hdet : detectToolName ((st.pendingBuffer ++ c).drop i0) with
      | none => simp [hdet, hst, hbuf, toolInputDeltasOf, concatAll, relayInv]
      | some name =>
        by_cases hb : (i0 > 0 ∧ jsTrim ((st.pendingBuffer ++ c).take i0) ≠ []) <;>
          cases hts : st.textStarted <;>
          simp [hdet, hb, hts, hst, hbuf, toolInputDeltasOf, concatAll, relayInv]

theorem dataLine_relayOK : RelayStepOK id processDataLine := by
  intro st data hinv
  simp only [id] at hinv ⊢
  unfold processDataLine
  by_cases hdone : data = doneSentinel
  · simp [hdone, toolInputDeltasOf, concatAll, hinv]
  rw [if_neg hdone]
  split
  · exact ⟨by simp [toolInputDeltasOf, concatAll], hinv⟩
  split
  · exact ⟨by simp [toolInputDeltasOf, concatAll], hinv⟩
  rename_i parsed hparse delta hdelta
  by_cases htr : jsTruthy delta = true
  case neg =>
    rw [if_neg htr]
    exact ⟨by simp [toolInputDeltasOf, concatAll], hinv⟩
  rw [if_pos htr]
  split
  · exact ⟨by simp [toolInputDeltasOf, concatAll], hinv⟩
  rename_i st1 evs1 hr
  obtain ⟨hb1, hs1, _, _, _, hdel1, _, _, _⟩ := handleReasoning_frame st delta st1 evs1 hr
  have hinv1 : relayInv st1 := fun hf => hb1 ▸ hinv (hs1 ▸ hf)
  split
  · rename_i c hc
    by_cases hce : c = []
    · rw [if_neg (by simp [hce])]
      exact ⟨by rw [hdel1]; simpa [concatAll] using hb1, hinv1⟩
    · rw [if_pos hce]
      have hstep := contentDelta_relayOK st1 c hinv1
      simp only [id] at hstep
      refine ⟨?_, hstep.2⟩
      rw [toolInputDeltasOf_append, concatAll_append, hdel1, hstep.1, hb1]
      simp [concatAll]
  · exact ⟨by rw [hdel1]; simpa [concatAll] using hb1, hinv1⟩

theorem line_relayOK : RelayStepOK id processLine := by
  intro st l hinv
  simp only [id] at hinv ⊢
  unfold processLine
  dsimp only
  split
  · exact ⟨by simp [toolInputDeltasOf, concatAll], hinv⟩
  · exact dataLine_relayOK st (jsTrim ((jsTrim l).drop 5)) hinv

theorem runSteps_relayOK {σ α : Type} (proj : σ → SessionState)
    (f : σ → α → σ × List UiEvent) (hf : RelayStepOK proj f) :
    RelayStepOK proj (fun s xs => runSteps f s xs) := by
  intro s xs
  induction xs generalizing s with
  | nil =>
    intro hinv
    simpa [runSteps, toolInputDeltasOf, concatAll] using hinv
  | cons x xs ih =>
    intro hinv
    have h1 := hf s x hinv
    have h2 := ih (f s x).1 h1.2
    refine ⟨?_, ?_⟩
    · simp [runSteps, toolInputDeltasOf_append, concatAll_append, h1.1, h2.1,
        List.append_assoc]
    · simpa [runSteps] using h2.2

theorem networkChunk_relayOK : RelayStepOK Prod.fst processNetworkChunk := by
  intro ns chunk hinv
  unfold processNetworkChunk
  exact runSteps_relayOK id processLine line_relayOK ns.1
    (splitOnNl (ns.2 ++ chunk)).dropLast hinv

theorem toolInputDeltasOf_finalize (st : SessionState) :
    toolInputDeltasOf (finalizeStream st) = [] := by
  unfold finalizeStream
  dsimp only
  repeat' split
  all_goals rfl

/-! ## C2: relay completeness -/

/-- C2: in any session in which a tool call is detected, concatenating
the inputTextDelta fields of all emitted tool-input-delta events, in
emission order, reproduces exactly the accumulated payload buffer
(toolCallJsonBuffer) that the finalizer reads at stream end. -/
theorem relay_completeness (chunks : List Str)
    (h : (runSession chunks).1.toolCallStarted = true) :
    concatAll (toolInputDeltasOf (runSession chunks).2) =
      (runSession chunks).1.toolCallJsonBuffer := by
  have hrun := runSteps_relayOK Prod.fst processNetworkChunk networkChunk_relayOK
    (initState, []) chunks (by intro _; rfl)
  unfold runSession
  simp only [toolInputDeltasOf, List.filterMap_cons]
  rw [← toolInputDeltasOf]
  rw [toolInputDeltasOf_append, toolInputDeltasOf_finalize, List.append_nil]
  exact hrun.1.symm.trans (by simp)

def c2Chunks : List Str :=
  [("data: \x7b\"choices\":[\x7b\"delta\":\x7b\"content\":\"\x7b\\\"tool\\\":\\\"edit_diagram\\\",\\\"operations\\\":[]\x7d\"\x7d\x7d]\x7d\n").toList]

theorem relay_completeness_witness :
    concatAll (toolInputDeltasOf (runSession c2Chunks).2) =
      (runSession c2Chunks).1.toolCallJsonBuffer :=
  relay_completeness c2Chunks rfl

/-! ## C5: delta frame parser robustness -/

theorem splitOnNl_ne_nil (s : Str) : splitOnNl s ≠ [] := by
  cases s with
  | nil => simp [splitOnNl]
  | cons c r =>
    unfold splitOnNl
    split
    · simp
    · cases h : splitOnNl r <;> simp

theorem splitOnNl_cons_nl (r : Str) : splitOnNl ('\n' :: r) = [] :: splitOnNl r := by
  simp [splitOnNl]

theorem splitOnNl_cons_other (c : Char) (r : Str) (hc : ¬ c = '\n') (h : Str)
    (t : List Str) (hr : splitOnNl r = h :: t) :
    splitOnNl (c :: r) = (c :: h) :: t := by
  unfold splitOnNl
  rw [if_neg hc, hr]

theorem splitOnNl_dest (s : Str) : ∃ h t, splitOnNl s = h :: t := by
  cases hS : splitOnNl s with
  | nil => exact absurd hS (splitOnNl_ne_nil s)
  | cons h t => exact ⟨h, t, rfl⟩

/-- Incremental line splitting agrees with batch splitting: appending
more input refines only the last (unterminated) segment. -/
theorem splitOnNl_merge (a b : Str) :
    splitOnNl (a ++ b) =
      (splitOnNl a).dropLast ++ splitOnNl ((splitOnNl a).getLastD [] ++ b) := by
  induction a with
  | nil => simp [splitOnNl]
  | cons c a' ih =>
    obtain ⟨h, t, hL⟩ := splitOnNl_dest a'
    obtain ⟨h2, t2, hL2⟩ := splitOnNl_dest (a' ++ b)
    by_cases hc : c = '\n'
    · subst hc
      rw [List.cons_append, splitOnNl_cons_nl, splitOnNl_cons_nl, ih, hL]
      cases t with
      | nil => simp [List.getLastD_cons]
      | cons u t' => simp [List.getLastD_cons]
    · rw [List.cons_append, splitOnNl_cons_other c (a' ++ b) hc h2 t2 hL2,
        splitOnNl_cons_other c a' hc h t hL]
      rw [ih, hL] at hL2
      cases t with
      | nil =>
        simp only [List.dropLast_single, List.getLastD_cons, List.getLastD_nil,
          List.nil_append] at hL2 ⊢
        obtain ⟨h3, t3, hL3⟩ := splitOnNl_dest (h ++ b)
        rw [hL3] at hL2
        injection hL2 with he1 he2
        subst he1
        subst he2
        rw [show (c :: h) ++ b = c :: (h ++ b) from rfl]
        exact (splitOnNl_cons_other c (h ++ b) hc h3 t3 hL3).symm
      | cons u t' =>
        simp only [List.dropLast_cons₂, List.getLastD_cons] at hL2 ⊢
        injection hL2 with he1 he2
        subst he1
        subst he2
        rfl

theorem runSteps_append {σ α : Type} (f : σ → α → σ × List UiEvent) (st : σ)
    (xs ys : List α) :
    runSteps f st (xs ++ ys) =
      ((runSteps f (runSteps f st xs).1 ys).1,
       (runSteps f st xs).2 ++ (runSteps f (runSteps f st xs).1 ys).2) := by
  induction xs generalizing st with
  | nil => simp [runSteps]
  | cons x xs ih => simp [runSteps, ih]

/-- Merging two network reads: processing one concatenated chunk is the
same as processing the two chunks in sequence (the trailing fragment is
carried over). -/
theorem networkChunk_merge (ns : SessionState × Str) (a b : Str) :
    processNetworkChunk ns (a ++ b) =
      ((processNetworkChunk (processNetworkChunk ns a).1 b).1,
       (processNetworkChunk ns a).2 ++ (processNetworkChunk (processNetworkChunk ns a).1 b).2) := by
  unfold processNetworkChunk
  dsimp only
  rw [← List.append_assoc, splitOnNl_merge (ns.2 ++ a) b]
  rw [List.dropLast_append_of_ne_nil _ (splitOnNl_ne_nil _)]
  rw [runSteps_append]
  have hlast : ((splitOnNl (ns.2 ++ a)).dropLast ++
      splitOnNl ((splitOnNl (ns.2 ++ a)).getLastD [] ++ b)).getLastD [] =
      (splitOnNl ((splitOnNl (ns.2 ++ a)).getLastD [] ++ b)).getLastD [] := by
    obtain ⟨h3, t3, hL3⟩ : ∃ h3 t3,
        splitOnNl ((splitOnNl (ns.2 ++ a)).getLastD [] ++ b) = h3 :: t3 := by
      cases hS : splitOnNl ((splitOnNl (ns.2 ++ a)).getLastD [] ++ b) with
      | nil => exact absurd hS (splitOnNl_ne_nil _)
      | cons h3 t3 => exact ⟨h3, t3, rfl⟩
    rw [hL3]
    simp only [List.getLastD_eq_getLast?, List.getLast?_append]
    rw [List.getLast?_eq_getLast (h3 :: t3) (by simp), Option.or_some]
  rw [hlast]

/-- C5: the delta frame parser splits only on newline boundaries and
retains the unterminated trailing fragment across reads (merging adjacent
chunks does not change the produced events or the final state); a data
payload equal to the DONE sentinel produces zero events; a data payload
that is not valid JSON produces zero events, leaves the state unchanged,
and does not stop the processing of subsequent lines. -/
theorem delta_frame_robustness :
    (∀ (ns : SessionState × Str) (c1 c2 : Str) (cs : List Str),
      runSteps processNetworkChunk ns (c1 :: c2 :: cs) =
        runSteps processNetworkChunk ns ((c1 ++ c2) :: cs)) ∧
    (∀ st : SessionState, processDataLine st doneSentinel = (st, [])) ∧
    (∀ (st : SessionState) (data : Str), jsonParse? data = none →
      processDataLine st data = (st, [])) ∧
    (∀ (st : SessionState) (l : Str) (ls : List Str),
      jsonParse? (jsTrim ((jsTrim l).drop 5)) = none →
      runSteps processLine st (l :: ls) = runSteps processLine st ls) := by
  have hbad : ∀ (st : SessionState) (data : Str), jsonParse? data = none →
      processDataLine st data = (st, []) := by
    intro st data hp
    unfold processDataLine
    by_cases hdone : data = doneSentinel
    · simp [hdone]
    · rw [if_neg hdone, hp]
  refine ⟨?_, ?_, hbad, ?_⟩
  · intro ns c1 c2 cs
    show (let r1 := processNetworkChunk ns c1
          let r2 := runSteps processNetworkChunk r1.1 (c2 :: cs)
          (r2.1, r1.2 ++ r2.2)) = _
    show _ = (let r1 := processNetworkChunk ns (c1 ++ c2)
              let r2 := runSteps processNetworkChunk r1.1 cs
              (r2.1, r1.2 ++ r2.2))
    rw [networkChunk_merge ns c1 c2]
    show (let r2 := (let r1 := processNetworkChunk (processNetworkChunk ns c1).1 c2
                     let r2 := runSteps processNetworkChunk r1.1 cs
                     (r2.1, r1.2 ++ r2.2));
          (r2.1, (processNetworkChunk ns c1).2 ++ r2.2)) = _
    dsimp only
    rw [List.append_assoc]
  · intro st
    unfold processDataLine
    rw [if_pos rfl]
  · intro st l ls hbadline
    show (let r1 := processLine st l
          let r2 := runSteps processLine r1.1 ls
          (r2.1, r1.2 ++ r2.2)) = _
    have hline : processLine st l = (st, []) := by
      unfold processLine
      dsimp only
      split
      · rfl
      · exact hbad st (jsTrim ((jsTrim l).drop 5)) hbadline
    rw [hline]
    simp

def c5Line : Str := "data: not json\n".toList

theorem delta_frame_robustness_witness :
    (runSteps processNetworkChunk (initState, []) (['d'] :: "ata: [DONE]\n".toList :: []) =
      runSteps processNetworkChunk (initState, []) ((['d'] ++ "ata: [DONE]\n".toList) :: [])) ∧
    processDataLine initState doneSentinel = (initState, []) ∧
    processDataLine initState "not json".toList = (initState, []) ∧
    runSteps processLine initState (c5Line :: []) = runSteps processLine initState [] := by
  refine ⟨delta_frame_robustness.1 (initState, []) ['d'] "ata: [DONE]\n".toList [],
    delta_frame_robustness.2.1 initState,
    delta_frame_robustness.2.2.1 initState "not json".toList rfl,
    delta_frame_robustness.2.2.2 initState c5Line [] rfl⟩

/-! ## C3: fail-soft recovery for the render kind -/

theorem lastIndexOfSub_short (pat t : Str) (h : t.length < pat.length) :
    lastIndexOfSub? pat t = none := by
  induction t with
  | nil =>
    unfold lastIndexOfSub?
    rw [if_neg]
    intro hp
    have hle := (List.isPrefixOf_iff_prefix.mp hp).length_le
    simp only [List.length_nil] at hle h
    omega
  | cons c r ih =>
    unfold lastIndexOfSub?
    rw [ih (by simp only [List.length_cons] at h; omega)]
    rw [if_neg]
    intro hp
    have hle := (List.isPrefixOf_iff_prefix.mp hp).length_le
    omega

theorem lastIndexOfSub_concat (pat X : Str) (hpat : pat ≠ []) :
    lastIndexOfSub? pat (X ++ pat) = some X.length := by
  induction X with
  | nil =>
    simp only [List.nil_append, List.length_nil]
    obtain ⟨p, pr, rfl⟩ : ∃ p pr, pat = p :: pr := by
      cases pat with
      | nil => exact absurd rfl hpat
      | cons p pr => exact ⟨p, pr, rfl⟩
    unfold lastIndexOfSub?
    rw [lastIndexOfSub_short (p :: pr) pr (by simp)]
    rw [if_pos (List.isPrefixOf_iff_prefix.mpr (List.prefix_refl _))]
  | cons c X' ih =>
    simp only [List.cons_append]
    unfold lastIndexOfSub?
    rw [ih]
    simp

theorem containsSub_append_left (pat a b : Str) (h : containsSub pat a = true) :
    containsSub pat (a ++ b) = true := by
  unfold containsSub at h ⊢
  induction a with
  | nil =>
    simp only [List.nil_append]
    unfold indexOfSub? at h
    by_cases hp : pat = []
    · subst hp
      cases b with
      | nil => simpa [indexOfSub?] using h
      | cons c r => simp [indexOfSub?, List.isPrefixOf]
    · rw [if_neg hp] at h
      simp at h
  | cons c a' ih =>
    simp only [List.cons_append]
    unfold indexOfSub? at h ⊢
    by_cases hp : pat.isPrefixOf (c :: a') = true
    · have hnew : pat.isPrefixOf (c :: (a' ++ b)) = true := by
        apply List.isPrefixOf_iff_prefix.mpr
        have h1 := List.isPrefixOf_iff_prefix.mp hp
        have h2 : (c :: a') <+: (c :: a') ++ b := List.prefix_append _ _
        exact h1.trans h2
      rw [if_pos hnew]
      simp
    · rw [if_neg hp] at h
      by_cases hnew : pat.isPrefixOf (c :: (a' ++ b)) = true
      · rw [if_pos hnew]
        simp
      · rw [if_neg hnew]
        simp only [Option.isSome_map'] at h ⊢
        exact ih h

/-- The payload-buffer family of the claim: the field-opening prefix for
the render tool, an arbitrary markup blob, and the closing
quote-then-brace sequence. -/
def preRender : Str := "\x7b\"tool\":\"display_diagram\",\"xml\":\"".toList

def wrapRender (B : Str) : Str := preRender ++ B ++ ['"', '\x7d']

/-- C3: for any payload buffer of the render shape whose strict parse
fails (the regex slice m does not parse as JSON, as happens when the blob
holds unescaped quotes), the recovery parser returns a render tool call
whose payload is exactly the literal content between the field-opening
marker and the last closing-quote-then-brace pattern, with a single
trailing quote stripped and the quote, newline and backslash escape
sequences reversed, provided that payload is non-empty after trimming. -/
theorem failsoft_render_recovery (B m : Str)
    (hmatch : jsonToolMatch? (wrapRender B) = some m)
    (hfail : jsonParse? m = none)
    (hne : jsTrim (unescapeXml (stripTrailingQuote B)) ≠ []) :
    parseToolCall (wrapRender B) =
      some (Json.obj [("tool".toList, Json.str displayName),
                      ("xml".toList, Json.str (unescapeXml (stripTrailingQuote B)))]) := by
  have hBne : B ≠ [] := by
    intro hB
    subst hB
    exact hne rfl
  have hBpos : 0 < B.length := List.length_pos.mpr hBne
  have hdisp : containsSub displayName (wrapRender B) = true := by
    have h0 : containsSub displayName preRender = true := by decide
    have h1 := containsSub_append_left displayName preRender (B ++ ['"', '\x7d']) h0
    simpa [wrapRender, List.append_assoc] using h1
  have hxs : findXmlStart? (wrapRender B) = some 33 := rfl
  have hwrap : wrapRender B = (preRender ++ B) ++ ['"', '\x7d'] := by
    simp [wrapRender, List.append_assoc]
  have hlen : (preRender ++ B).length = 33 + B.length := by
    simp only [List.length_append]
    rw [show preRender.length = 33 from rfl]
  have hlast : lastIndexOfSub? ['"', '\x7d'] (wrapRender B) = some (33 + B.length) := by
    have h0 := lastIndexOfSub_concat ['"', '\x7d'] (preRender ++ B) (by decide)
    rw [← hwrap] at h0
    rw [h0, hlen]
  have hxml0 : ((wrapRender B).take (33 + B.length)).drop 33 = B := by
    have h1 : (wrapRender B).take (33 + B.length) = preRender ++ B := by
      rw [hwrap, ← hlen]
      exact List.take_left _ _
    rw [h1]
    rw [show (33 : Nat) = preRender.length from rfl]
    exact List.drop_left _ _
  unfold parseToolCall
  rw [hmatch]
  dsimp only
  rw [hfail]
  dsimp only
  rw [if_pos hdisp, hxs]
  dsimp only
  rw [hlast]
  dsimp only
  rw [if_neg (by omega)]
  dsimp only
  rw [if_pos (by omega)]
  rw [hxml0]
  rw [if_pos hne]

def c3Blob : Str := "<node attr=\"x\"/>".toList

theorem failsoft_render_recovery_witness :
    parseToolCall (wrapRender c3Blob) =
      some (Json.obj [("tool".toList, Json.str displayName),
                      ("xml".toList,
                       Json.str (unescapeXml (stripTrailingQuote c3Blob)))]) :=
  failsoft_render_recovery c3Blob (wrapRender c3Blob) rfl rfl (by decide)

/-! ## C1: no premature tool leakage -/

theorem indexOfSub_none_iff (pat s : Str) (hp : pat ≠ []) :
    indexOfSub? pat s = none ↔ ∀ i, ¬ pat <+: s.drop i := by
  induction s with
  | nil =>
    simp only [indexOfSub?, if_neg hp]
    constructor
    · intro _ i hpre
      rw [List.drop_nil] at hpre
      exact hp (List.prefix_nil.mp hpre)
    · intro _
      trivial
  | cons c r ih =>
    simp only [indexOfSub?]
    by_cases hpre : pat.isPrefixOf (c :: r) = true
    · rw [if_pos hpre]
      constructor
      · intro h
        cases h
      · intro h
        exact absurd (List.isPrefixOf_iff_prefix.mp hpre) (by simpa using h 0)
    · rw [if_neg hpre]
      constructor
      · intro h i
        cases i with
        | zero =>
          intro hcontra
          exact hpre (List.isPrefixOf_iff_prefix.mpr (by simpa using hcontra))
        | succ j =>
          rw [List.drop_succ_cons]
          have hnone : indexOfSub? pat r = none := by
            cases hr : indexOfSub? pat r with
            | none => rfl
            | some k => rw [hr] at h; cases h
          exact (ih.mp hnone) j
      · intro h
        rw [ih.mpr (fun j => by simpa using h (j + 1))]
        rfl

theorem indexOfSub_some_occ (pat s : Str) (i : Nat)
    (h : indexOfSub? pat s = some i) : pat <+: s.drop i := by
  induction s generalizing i with
  | nil =>
    unfold indexOfSub? at h
    by_cases hp : pat = []
    · rw [if_pos hp] at h
      injection h with h
      subst h
      subst hp
      exact List.nil_prefix
    · rw [if_neg hp] at h
      cases h
  | cons c r ih =>
    unfold indexOfSub? at h
    by_cases hpre : pat.isPrefixOf (c :: r) = true
    · rw [if_pos hpre] at h
      injection h with h
      subst h
      simpa using List.isPrefixOf_iff_prefix.mp hpre
    · rw [if_neg hpre] at h
      cases hr : indexOfSub? pat r with
      | none => rw [hr] at h; cases h
      | some j =>
        rw [hr] at h
        simp only [Option.map_some'] at h
        injection h with h
        subst h
        rw [List.drop_succ_cons]
        exact ih j hr

theorem containsSub_occ_iff (pat s : Str) (hp : pat ≠ []) :
    containsSub pat s = true ↔ pat <:+: s := by
  unfold containsSub
  constructor
  · intro h
    cases hidx : indexOfSub? pat s with
    | none => rw [hidx] at h; cases h
    | some i =>
      exact (indexOfSub_some_occ pat s i hidx).isInfix.trans
        (List.drop_suffix i s).isInfix
  · rintro ⟨u, v, huv⟩
    have hpre : pat <+: s.drop u.length := by
      rw [← huv, List.append_assoc, List.drop_left]
      exact ⟨v, rfl⟩
    cases hidx : indexOfSub? pat s with
    | some i => rfl
    | none => exact absurd hpre ((indexOfSub_none_iff pat s hp).mp hidx u.length)

theorem isPrefix_drop {p l : Str} (h : p <+: l) (n : Nat) :
    p.drop n <+: l.drop n := by
  obtain ⟨t, rfl⟩ := h
  by_cases hn : n ≤ p.length
  · rw [List.drop_append_eq_append_drop, Nat.sub_eq_zero_of_le hn, List.drop_zero]
    exact List.prefix_append _ _
  · rw [List.drop_eq_nil_of_le (by omega)]
    exact List.nil_prefix

theorem drop_append_le {a b : Str} {n : Nat} (h : n ≤ a.length) :
    (a ++ b).drop n = a.drop n ++ b := by
  rw [List.drop_append_eq_append_drop, Nat.sub_eq_zero_of_le h, List.drop_zero]

theorem take_append_le {a b : Str} {n : Nat} (h : n ≤ a.length) :
    (a ++ b).take n = a.take n := by
  rw [List.take_append_eq_append_take, Nat.sub_eq_zero_of_le h, List.take_zero,
    List.append_nil]

theorem suffix_drop_self {p b : Str} (h : p <:+ b) :
    b.drop (b.length - p.length) = p := by
  obtain ⟨u, rfl⟩ := h
  rw [List.length_append, Nat.add_sub_cancel]
  exact List.drop_left u p

theorem marker7_take_detect_none : ∀ k, k ≤ 7 → detectToolName (marker7.take k) = none := by
  decide

theorem marker_border_suffix : ∀ m, m ≤ 6 → ∀ k, k < m → 1 ≤ k →
    (marker7.take k).isSuffixOf (marker7.take m) = false := by
  decide

theorem marker_junction : ∀ j, 1 ≤ j → j ≤ 6 →
    (marker7.drop j).isPrefixOf marker7 = false := by
  decide

theorem marker7_ne_nil : marker7 ≠ [] := by decide

theorem marker7_len : marker7.length = 7 := by decide

/-- The unique occurrence of the tool marker in narration followed by
the marker: given the narration contains no marker, the only occurrence
in the concatenation is at the junction. -/
theorem marker_occ_unique (T : Str) (hT : containsSub marker7 T = false) :
    ∀ i, marker7 <+: (T ++ marker7).drop i → i = T.length := by
  intro i hocc
  have hTnotinf : ¬ marker7 <:+: T := by
    intro hinf
    rw [(containsSub_occ_iff marker7 T marker7_ne_nil).mpr hinf] at hT
    cases hT
  by_cases hi : i ≤ T.length
  · have hdrop : (T ++ marker7).drop i = T.drop i ++ marker7 := drop_append_le hi
    by_cases hfit : i + 7 ≤ T.length
    · exfalso
      have hlen : 7 ≤ (T.drop i).length := by
        rw [List.length_drop]
        omega
      have hpre : marker7 <+: T.drop i := by
        rw [List.prefix_iff_eq_take] at hocc ⊢
        rw [hdrop, marker7_len] at hocc
        rw [take_append_le hlen] at hocc
        rw [marker7_len]
        exact hocc
      exact hTnotinf (hpre.isInfix.trans (List.drop_suffix i T).isInfix)
    · rcases Nat.eq_or_lt_of_le hi with heq | hlt
      · exact heq
      · exfalso
        have hj1 : 1 ≤ T.length - i := by omega
        have hj6 : T.length - i ≤ 6 := by omega
        have hdropj : marker7.drop (T.length - i) <+: marker7 := by
          have h1 := isPrefix_drop hocc (T.length - i)
          rw [List.drop_drop] at h1
          rw [show i + (T.length - i) = T.length from by omega] at h1
          rwa [List.drop_left' rfl] at h1
        have hfalse := marker_junction (T.length - i) hj1 hj6
        rw [List.isPrefixOf_iff_prefix.mpr hdropj] at hfalse
        cases hfalse
  · exfalso
    push_neg at hi
    have hlen := hocc.length_le
    rw [List.length_drop, List.length_append, marker7_len] at hlen
    omega

theorem markerPieces_mem (p : Str) (hp : p ∈ markerPieces) :
    ∃ k, 1 ≤ k ∧ k ≤ 6 ∧ p = marker7.take k := by
  simp only [markerPieces, List.mem_cons, List.not_mem_nil, or_false] at hp
  rcases hp with rfl | rfl | rfl | rfl | rfl | rfl
  · exact ⟨1, by omega, by omega, rfl⟩
  · exact ⟨2, by omega, by omega, rfl⟩
  · exact ⟨3, by omega, by omega, rfl⟩
  · exact ⟨4, by omega, by omega, rfl⟩
  · exact ⟨5, by omega, by omega, rfl⟩
  · exact ⟨6, by omega, by omega, rfl⟩

theorem take_marker7_len {j : Nat} (hj : j ≤ 7) : (marker7.take j).length = j := by
  rw [List.length_take, marker7_len]
  omega

theorem suffix_unique_of_marker_takes {pb : Str} {k m : Nat}
    (h1 : 1 ≤ k) (h6 : k ≤ 6) (g1 : 1 ≤ m) (g6 : m ≤ 6)
    (hk : marker7.take k <:+ pb) (hm : marker7.take m <:+ pb) : k = m := by
  rcases Nat.lt_trichotomy k m with h | h | h
  · exfalso
    have hs := List.suffix_of_suffix_length_le hk hm
      (by rw [take_marker7_len (by omega), take_marker7_len (by omega)]; omega)
    have hb := marker_border_suffix m g6 k h h1
    rw [List.isSuffixOf_iff_suffix.mpr hs] at hb
    cases hb
  · exact h
  · exfalso
    have hs := List.suffix_of_suffix_length_le hm hk
      (by rw [take_marker7_len (by omega), take_marker7_len (by omega)]; omega)
    have hb := marker_border_suffix k h6 m h g1
    rw [List.isSuffixOf_iff_suffix.mpr hs] at hb
    cases hb

theorem keepFrom_le (pb : Str) : keepFrom pb ≤ pb.length := by
  unfold keepFrom
  cases h : markerPieces.find? (fun p => p.isSuffixOf pb) with
  | none => exact Nat.le_refl _
  | some p => exact Nat.sub_le _ _

theorem keepFrom_no_suffix (pb : Str)
    (h : ∀ k, 1 ≤ k → k ≤ 6 → ¬ (marker7.take k <:+ pb)) :
    keepFrom pb = pb.length := by
  unfold keepFrom
  have hnone : markerPieces.find? (fun p => p.isSuffixOf pb) = none := by
    rw [List.find?_eq_none]
    intro p hp
    obtain ⟨k, h1, h6, rfl⟩ := markerPieces_mem p hp
    intro hb
    exact h k h1 h6 (List.isSuffixOf_iff_suffix.mp hb)
  rw [hnone]

theorem keepFrom_unique (pb : Str) (j : Nat) (hj1 : 1 ≤ j) (hj6 : j ≤ 6)
    (hsuf : marker7.take j <:+ pb)
    (huni : ∀ k, 1 ≤ k → k ≤ 6 → marker7.take k <:+ pb → k = j) :
    keepFrom pb = pb.length - j := by
  have hbool : ∀ k, 1 ≤ k → k ≤ 6 →
      ((marker7.take k).isSuffixOf pb) = decide (k = j) := by
    intro k h1 h6
    by_cases hkj : k = j
    · subst hkj
      rw [List.isSuffixOf_iff_suffix.mpr hsuf]
      simp
    · cases hb : (marker7.take k).isSuffixOf pb with
      | false => simp [hkj]
      | true => exact absurd (huni k h1 h6 (List.isSuffixOf_iff_suffix.mp hb)) hkj
  unfold keepFrom
  have hfind : markerPieces.find? (fun p => p.isSuffixOf pb) = some (marker7.take j) := by
    have q1 := hbool 1 (by omega) (by omega)
    have q2 := hbool 2 (by omega) (by omega)
    have q3 := hbool 3 (by omega) (by omega)
    have q4 := hbool 4 (by omega) (by omega)
    have q5 := hbool 5 (by omega) (by omega)
    have q6 := hbool 6 (by omega) (by omega)
    simp only [markerPieces, List.find?, q1, q2, q3, q4, q5, q6]
    interval_cases j <;> rfl
  rw [hfind]
  dsimp only
  rw [take_marker7_len (by omega)]

/-- Shape of the no-marker branch: the new pending buffer is the old one
(with the delta) past the keep index, and at most one text delta (up to
the keep index) is emitted. -/
theorem pcd_none_shape (st : SessionState) (d : Str)
    (hts : st.toolCallStarted = false)
    (hidx : indexOfSub? marker7 (st.pendingBuffer ++ d) = none) :
    (processContentDelta st d).1.pendingBuffer
      = (st.pendingBuffer ++ d).drop (keepFrom (st.pendingBuffer ++ d)) ∧
    (textDeltasOf (processContentDelta st d).2 = [] ∨
     textDeltasOf (processContentDelta st d).2
       = [(st.pendingBuffer ++ d).take (keepFrom (st.pendingBuffer ++ d))]) ∧
    (processContentDelta st d).1.toolCallStarted = false := by
  simp only [processContentDelta, hts, Bool.false_eq_true, if_false, hidx]
  by_cases hk : keepFrom (st.pendingBuffer ++ d) > 0
  · by_cases he : jsTrim ((st.pendingBuffer ++ d).take (keepFrom (st.pendingBuffer ++ d))) = [] <;>
      cases hts2 : st.textStarted <;>
      simp [hk, he, hts2, textDeltasOf]
  · have hz : keepFrom (st.pendingBuffer ++ d) = 0 := by omega
    simp [hk, hz, textDeltasOf]

/-- Shape of the marker-found, kind-unrecognizable branch: everything is
retained and nothing is emitted. -/
theorem pcd_found_none_shape (st : SessionState) (d : Str) (i0 : Nat)
    (hts : st.toolCallStarted = false)
    (hidx : indexOfSub? marker7 (st.pendingBuffer ++ d) = some i0)
    (hdet : detectToolName ((st.pendingBuffer ++ d).drop i0) = none) :
    (processContentDelta st d).1.pendingBuffer = st.pendingBuffer ++ d ∧
    (processContentDelta st d).2 = [] ∧
    (processContentDelta st d).1.toolCallStarted = false := by
  simp only [processContentDelta, hts, Bool.false_eq_true, if_false, hidx, hdet]
  simp

/-- The TEXT-mode step property of the claim: with no marker in the
buffer, the retained pending buffer is the longest suffix that is a
non-empty prefix of the marker, and narration is emitted exactly up to
that suffix. -/
theorem text_mode_step (st : SessionState) (d : Str)
    (hts : st.toolCallStarted = false)
    (hno : containsSub marker7 (st.pendingBuffer ++ d) = false) :
    (processContentDelta st d).1.pendingBuffer <:+ (st.pendingBuffer ++ d) ∧
    (processContentDelta st d).1.pendingBuffer <+: marker7 ∧
    (∀ k, 0 < k → marker7.take k <:+ (st.pendingBuffer ++ d) →
      k ≤ (processContentDelta st d).1.pendingBuffer.length) ∧
    (∀ d2 ∈ textDeltasOf (processContentDelta st d).2,
      d2 = (st.pendingBuffer ++ d).take
        ((st.pendingBuffer ++ d).length - (processContentDelta st d).1.pendingBuffer.length)) := by
  have hidx : indexOfSub? marker7 (st.pendingBuffer ++ d) = none := by
    unfold containsSub at hno
    cases h : indexOfSub? marker7 (st.pendingBuffer ++ d) with
    | none => rfl
    | some i => rw [h] at hno; cases hno
  obtain ⟨hpb, hevs, _⟩ := pcd_none_shape st d hts hidx
  have hnotall : ¬ marker7 <:+ (st.pendingBuffer ++ d) := by
    intro hsuf
    rw [(containsSub_occ_iff marker7 _ marker7_ne_nil).mpr hsuf.isInfix] at hno
    cases hno
  have hkeep : keepFrom (st.pendingBuffer ++ d) ≤ (st.pendingBuffer ++ d).length :=
    keepFrom_le _
  by_cases hex : ∃ j, 1 ≤ j ∧ j ≤ 6 ∧ marker7.take j <:+ (st.pendingBuffer ++ d)
  · obtain ⟨j, hj1, hj6, hsuf⟩ := hex
    have huni : ∀ k, 1 ≤ k → k ≤ 6 → marker7.take k <:+ (st.pendingBuffer ++ d) → k = j :=
      fun k h1 h6 hk => suffix_unique_of_marker_takes h1 h6 hj1 hj6 hk hsuf
    have hkf := keepFrom_unique _ j hj1 hj6 hsuf huni
    have hjlen : j ≤ (st.pendingBuffer ++ d).length := by
      have := hsuf.length_le
      rw [take_marker7_len (by omega)] at this
      exact this
    have hnewpb : (processContentDelta st d).1.pendingBuffer = marker7.take j := by
      rw [hpb, hkf]
      have := suffix_drop_self hsuf
      rw [take_marker7_len (by omega)] at this
      exact this
    refine ⟨?_, ?_, ?_, ?_⟩
    · rw [hpb]; exact List.drop_suffix _ _
    · rw [hnewpb]; exact List.take_prefix _ _
    · intro k hk0 hksuf
      rw [hnewpb, take_marker7_len (by omega)]
      by_cases hk7 : k ≤ 6
      · rw [huni k (by omega) hk7 hksuf]
      · exfalso
        have h7 : marker7.take k = marker7 := List.take_of_length_le (by rw [marker7_len]; omega)
        rw [h7] at hksuf
        exact hnotall hksuf
    · intro d2 hd2
      rcases hevs with hnil | hone
      · rw [hnil] at hd2; cases hd2
      · rw [hone] at hd2
        rcases List.mem_singleton.mp hd2 with rfl
        rw [hpb, List.length_drop, hkf]
        congr 1
        omega
  · push_neg at hex
    have hkf : keepFrom (st.pendingBuffer ++ d) = (st.pendingBuffer ++ d).length :=
      keepFrom_no_suffix _ (fun k h1 h6 => hex k h1 h6)
    have hnewpb : (processContentDelta st d).1.pendingBuffer = [] := by
      rw [hpb, hkf, List.drop_length]
    refine ⟨?_, ?_, ?_, ?_⟩
    · rw [hpb]; exact List.drop_suffix _ _
    · rw [hnewpb]; exact List.nil_prefix
    · intro k hk0 hksuf
      exfalso
      by_cases hk7 : k ≤ 6
      · exact hex k (by omega) hk7 hksuf
      · have h7 : marker7.take k = marker7 := List.take_of_length_le (by rw [marker7_len]; omega)
        rw [h7] at hksuf
        exact hnotall hksuf
    · intro d2 hd2
      rcases hevs with hnil | hone
      · rw [hnil] at hd2; cases hd2
      · rw [hone] at hd2
        rcases List.mem_singleton.mp hd2 with rfl
        rw [hpb, List.length_drop, hkf]
        congr 1
        omega

/-- One content delta preserves the leakage invariant: the state stays in
TEXT mode, the pending buffer is a tail of the processed input cut no
deeper than the narration part, and every emitted text delta is a
contiguous substring of the narration. -/
theorem c1_step (T : Str) (hT : containsSub marker7 T = false)
    (P d : Str) (st : SessionState) (c : Nat)
    (hQ : P ++ d <+: T ++ marker7)
    (hts : st.toolCallStarted = false)
    (hcT : c ≤ T.length) (hcP : c ≤ P.length)
    (hpb : st.pendingBuffer = P.drop c) :
    (processContentDelta st d).1.toolCallStarted = false ∧
    (∃ c2, c2 ≤ T.length ∧ c2 ≤ (P ++ d).length ∧
      (processContentDelta st d).1.pendingBuffer = (P ++ d).drop c2) ∧
    (∀ d2 ∈ textDeltasOf (processContentDelta st d).2, d2 <:+: T) := by
  have hb : st.pendingBuffer ++ d = (P ++ d).drop c := by
    rw [hpb, drop_append_le hcP]
  have hcQ : c ≤ (P ++ d).length := by
    rw [List.length_append]
    omega
  have hocc_full : ∀ k, marker7 <+: ((P ++ d).drop c).drop k → c + k = T.length := by
    intro k hk
    rw [List.drop_drop] at hk
    exact marker_occ_unique T hT (c + k) (hk.trans (isPrefix_drop hQ (c + k)))
  cases hidx : indexOfSub? marker7 (st.pendingBuffer ++ d) with
  | some i0 =>
    have hp := indexOfSub_some_occ _ _ _ hidx
    have hocc : marker7 <+: ((P ++ d).drop c).drop i0 := by
      rw [← hb]
      exact hp
    have hci : c + i0 = T.length := hocc_full i0 hocc
    have hQdrop : (P ++ d).drop T.length <+: marker7 := by
      have h0 := isPrefix_drop hQ T.length
      rwa [List.drop_left' rfl] at h0
    have hdet : detectToolName ((st.pendingBuffer ++ d).drop i0) = none := by
      have h1 : (st.pendingBuffer ++ d).drop i0 = (P ++ d).drop T.length := by
        rw [hb, List.drop_drop, hci]
      rw [h1, List.prefix_iff_eq_take.mp hQdrop]
      refine marker7_take_detect_none _ ?_
      have := hQdrop.length_le
      rw [marker7_len] at this
      exact this
    obtain ⟨hpb2, hev2, hts2⟩ := pcd_found_none_shape st d i0 hts hidx hdet
    refine ⟨hts2, ⟨c, hcT, hcQ, by rw [hpb2, hb]⟩, ?_⟩
    rw [hev2]
    intro d2 hd2
    cases hd2
  | none =>
    obtain ⟨hpb2, hev2, hts2⟩ := pcd_none_shape st d hts hidx
    have hkle : keepFrom (st.pendingBuffer ++ d) ≤ (st.pendingBuffer ++ d).length :=
      keepFrom_le _
    have hblen : (st.pendingBuffer ++ d).length = (P ++ d).length - c := by
      rw [hb, List.length_drop]
    have hQlen : (P ++ d).length ≤ T.length + 7 := by
      have := hQ.length_le
      rw [List.length_append T, marker7_len] at this
      exact this
    have hc2Q : c + keepFrom (st.pendingBuffer ++ d) ≤ (P ++ d).length := by omega
    have hpb3 : (processContentDelta st d).1.pendingBuffer
        = (P ++ d).drop (c + keepFrom (st.pendingBuffer ++ d)) := by
      rw [hpb2, hb, List.drop_drop]
    by_cases hn : (P ++ d).length ≤ T.length
    · refine ⟨hts2, ⟨c + keepFrom (st.pendingBuffer ++ d), by omega, hc2Q, hpb3⟩, ?_⟩
      intro d2 hd2
      rcases hev2 with hnil | hone
      · rw [hnil] at hd2
        cases hd2
      · rw [hone] at hd2
        rcases List.mem_singleton.mp hd2 with rfl
        have hQT : (P ++ d) <+: T :=
          List.prefix_of_prefix_length_le hQ (List.prefix_append T marker7) hn
        have i1 : (st.pendingBuffer ++ d).take (keepFrom (st.pendingBuffer ++ d))
            <:+: (st.pendingBuffer ++ d) := (List.take_prefix _ _).isInfix
        have i2 : (st.pendingBuffer ++ d) <:+: (P ++ d) := by
          rw [hb]
          exact (List.drop_suffix _ _).isInfix
        exact (i1.trans i2).trans hQT.isInfix
    · push_neg at hn
      have hj1 : 1 ≤ (P ++ d).length - T.length := by omega
      have hj7 : (P ++ d).length - T.length ≤ 7 := by omega
      have hQtake : P ++ d = T ++ marker7.take ((P ++ d).length - T.length) := by
        conv_lhs => rw [List.prefix_iff_eq_take.mp hQ]
        rw [List.take_append_eq_append_take, List.take_of_length_le (le_of_lt hn)]
      have hbeq : st.pendingBuffer ++ d
          = T.drop c ++ marker7.take ((P ++ d).length - T.length) := by
        rw [hb]
        conv_lhs => rw [hQtake]
        rw [drop_append_le hcT]
      have hsufj : marker7.take ((P ++ d).length - T.length) <:+ (st.pendingBuffer ++ d) := by
        rw [hbeq]
        exact List.suffix_append _ _
      have hj6 : (P ++ d).length - T.length ≤ 6 := by
        by_contra h7le
        push_neg at h7le
        have hj7eq : (P ++ d).length - T.length = 7 := by omega
        have hm7 : marker7 <+: marker7.take ((P ++ d).length - T.length) := by
          rw [hj7eq, List.take_of_length_le (by rw [marker7_len])]
        have hoccb : marker7 <+: (st.pendingBuffer ++ d).drop (T.length - c) := by
          rw [hbeq, List.drop_left' (by rw [List.length_drop])]
          exact hm7
        exact absurd hoccb
          ((indexOfSub_none_iff marker7 _ marker7_ne_nil).mp hidx (T.length - c))
      have huni : ∀ k, 1 ≤ k → k ≤ 6 →
          marker7.take k <:+ (st.pendingBuffer ++ d) → k = (P ++ d).length - T.length :=
        fun k h1 h6 hk =>
          suffix_unique_of_marker_takes h1 h6 hj1 (by omega) hk hsufj
      have hkf : keepFrom (st.pendingBuffer ++ d)
          = (st.pendingBuffer ++ d).length - ((P ++ d).length - T.length) :=
        keepFrom_unique _ _ hj1 (by omega) hsufj huni
      refine ⟨hts2, ⟨c + keepFrom (st.pendingBuffer ++ d), by omega, hc2Q, hpb3⟩, ?_⟩
      intro d2 hd2
      rcases hev2 with hnil | hone
      · rw [hnil] at hd2
        cases hd2
      · rw [hone] at hd2
        rcases List.mem_singleton.mp hd2 with rfl
        have hdc : (T.drop c).length = (st.pendingBuffer ++ d).length
            - ((P ++ d).length - T.length) := by
          rw [List.length_drop, hblen]
          omega
        have htake : (st.pendingBuffer ++ d).take (keepFrom (st.pendingBuffer ++ d))
            = T.drop c := by
          rw [hkf, ← hdc]
          conv_lhs => rw [hbeq]
          exact List.take_left _ _
        rw [htake]
        exact (List.drop_suffix c T).isInfix

theorem concatAll_cons (x : Str) (xs : List Str) :
    concatAll (x :: xs) = x ++ concatAll xs := rfl

/-- Running any sequence of content deltas from a state satisfying the
leakage invariant preserves it. -/
theorem c1_run (T : Str) (hT : containsSub marker7 T = false) (cs : List Str) :
    ∀ (P : Str) (st : SessionState) (c : Nat),
      P ++ concatAll cs <+: T ++ marker7 →
      st.toolCallStarted = false →
      c ≤ T.length → c ≤ P.length → st.pendingBuffer = P.drop c →
      (runSteps processContentDelta st cs).1.toolCallStarted = false ∧
      (∃ c2, c2 ≤ T.length ∧ c2 ≤ (P ++ concatAll cs).length ∧
        (runSteps processContentDelta st cs).1.pendingBuffer = (P ++ concatAll cs).drop c2) ∧
      (∀ d2 ∈ textDeltasOf (runSteps processContentDelta st cs).2, d2 <:+: T) := by
  induction cs with
  | nil =>
    intro P st c hpre hts hcT hcP hpb
    refine ⟨hts, ⟨c, hcT, ?_, ?_⟩, ?_⟩
    · simpa [concatAll] using hcP
    · simpa [runSteps, concatAll] using hpb
    · simp [runSteps, textDeltasOf]
  | cons d cs ih =>
    intro P st c hpre hts hcT hcP hpb
    have hpre' : (P ++ d) ++ concatAll cs <+: T ++ marker7 := by
      rw [List.append_assoc]
      exact (concatAll_cons d cs ▸ hpre)
    have hQ : P ++ d <+: T ++ marker7 :=
      (List.prefix_append (P ++ d) (concatAll cs)).trans hpre'
    obtain ⟨hts1, ⟨c2, hc2T, hc2P, hpb1⟩, hinf1⟩ := c1_step T hT P d st c hQ hts hcT hcP hpb
    obtain ⟨a1, ⟨c3, hc3T, hc3P, hpb3⟩, a3⟩ :=
      ih (P ++ d) (processContentDelta st d).1 c2 hpre' hts1 hc2T hc2P hpb1
    have hrw : (P ++ d) ++ concatAll cs = P ++ concatAll (d :: cs) := by
      rw [concatAll_cons, List.append_assoc]
    refine ⟨?_, ⟨c3, hc3T, ?_, ?_⟩, ?_⟩
    · simpa [runSteps] using a1
    · rw [← hrw]
      exact hc3P
    · show (runSteps processContentDelta st (d :: cs)).1.pendingBuffer = _
      simp only [runSteps]
      rw [← hrw]
      exact hpb3
    · intro d2 hd2
      simp only [runSteps, textDeltasOf, List.filterMap_append] at hd2
      rcases List.mem_append.mp hd2 with h | h
      · exact hinf1 d2 h
      · exact a3 d2 h

/-- C1: for any narration T immediately followed by the full tool-call
marker, split arbitrarily into delta chunks, the TEXT-mode transformer
never emits any character of the marker occurrence: it stays in TEXT
mode, the whole marker is still held in the pending buffer at the end,
and every emitted text delta is a contiguous substring of T.  Moreover,
on any TEXT-mode delta with no complete marker in the buffer, narration
is emitted only up to the longest suffix of the buffer that is a
non-empty prefix of the marker, and exactly that suffix is retained. -/
theorem no_premature_tool_leakage (T : Str) (cs : List Str)
    (hcat : concatAll cs = T ++ marker7)
    (hT : containsSub marker7 T = false) :
    (runSteps processContentDelta initState cs).1.toolCallStarted = false ∧
    marker7 <:+ (runSteps processContentDelta initState cs).1.pendingBuffer ∧
    (∀ d ∈ textDeltasOf (runSteps processContentDelta initState cs).2, d <:+: T) ∧
    (∀ (st : SessionState) (d : Str), st.toolCallStarted = false →
      containsSub marker7 (st.pendingBuffer ++ d) = false →
      ((processContentDelta st d).1.pendingBuffer <:+ (st.pendingBuffer ++ d) ∧
       (processContentDelta st d).1.pendingBuffer <+: marker7 ∧
       (∀ k, 0 < k → marker7.take k <:+ (st.pendingBuffer ++ d) →
         k ≤ (processContentDelta st d).1.pendingBuffer.length) ∧
       (∀ d2 ∈ textDeltasOf (processContentDelta st d).2,
         d2 = (st.pendingBuffer ++ d).take
           ((st.pendingBuffer ++ d).length - (processContentDelta st d).1.pendingBuffer.length)))) := by
  obtain ⟨h1, ⟨c2, hc2T, _, hpb⟩, h3⟩ :=
    c1_run T hT cs [] initState 0 (by simp [hcat]) rfl (by omega) (by omega) rfl
  refine ⟨h1, ?_, h3, fun st d a b => text_mode_step st d a b⟩
  rw [hpb]
  simp only [List.nil_append]
  rw [hcat, drop_append_le hc2T]
  exact List.suffix_append _ _

def c1T : Str := "Here is the diagram. ".toList

def c1Chunks : List Str :=
  ["Here is the d".toList, "iagram. \x7b".toList, "\"tool".toList, "\"".toList]

theorem no_premature_tool_leakage_witness :
    (runSteps processContentDelta initState c1Chunks).1.toolCallStarted = false ∧
    marker7 <:+ (runSteps processContentDelta initState c1Chunks).1.pendingBuffer ∧
    (∀ d ∈ textDeltasOf (runSteps processContentDelta initState c1Chunks).2, d <:+: c1T) ∧
    (∀ (st : SessionState) (d : Str), st.toolCallStarted = false →
      containsSub marker7 (st.pendingBuffer ++ d) = false →
      ((processContentDelta st d).1.pendingBuffer <:+ (st.pendingBuffer ++ d) ∧
       (processContentDelta st d).1.pendingBuffer <+: marker7 ∧
       (∀ k, 0 < k → marker7.take k <:+ (st.pendingBuffer ++ d) →
         k ≤ (processContentDelta st d).1.pendingBuffer.length) ∧
       (∀ d2 ∈ textDeltasOf (processContentDelta st d).2,
         d2 = (st.pendingBuffer ++ d).take
           ((st.pendingBuffer ++ d).length - (processContentDelta st d).1.pendingBuffer.length)))) :=
  no_premature_tool_leakage c1T c1Chunks rfl rfl

/-! ## C7: guarded mode transition -/


/-- C7: from TEXT mode, a delta triggers the transition to TOOL mode
(emitting tool-input-start) exactly when the pending buffer (with the
delta appended) contains the marker and a tool kind is recognizable from
the content at the marker onward; when the marker is present but the kind
is not recognizable the whole buffer is retained, no events are emitted
and the mode stays TEXT. -/
theorem guarded_mode_transition (st : SessionState) (d : Str)
    (h : st.toolCallStarted = false) :
    ((∃ n, UiEvent.toolInputStart n ∈ (processContentDelta st d).2) ↔
      (∃ i, indexOfSub? marker7 (st.pendingBuffer ++ d) = some i ∧
        (detectToolName ((st.pendingBuffer ++ d).drop i)).isSome = true)) ∧
    ((processContentDelta st d).1.toolCallStarted = true ↔
      (∃ i, indexOfSub? marker7 (st.pendingBuffer ++ d) = some i ∧
        (detectToolName ((st.pendingBuffer ++ d).drop i)).isSome = true)) ∧
    (∀ i, indexOfSub? marker7 (st.pendingBuffer ++ d) = some i →
      detectToolName ((st.pendingBuffer ++ d).drop i) = none →
      (processContentDelta st d).1.pendingBuffer = st.pendingBuffer ++ d ∧
      (processContentDelta st d).2 = [] ∧
      (processContentDelta st d).1.toolCallStarted = false) := by
  simp only [processContentDelta, h, Bool.false_eq_true, if_false]
  cases hidx : indexOfSub? marker7 (st.pendingBuffer ++ d) with
  | none =>
    by_cases hk : keepFrom (st.pendingBuffer ++ d) > 0
    · by_cases he : jsTrim ((st.pendingBuffer ++ d).take (keepFrom (st.pendingBuffer ++ d))) = [] <;>
        cases hts : st.textStarted <;>
        simp [hk, he, hts, h]
    · simp [hk, h]
  | some i0 =>
    cases hdet : detectToolName ((st.pendingBuffer ++ d).drop i0) with
    | none => simp [hdet, h]
    | some name =>
      by_cases hb : (i0 > 0 ∧ jsTrim ((st.pendingBuffer ++ d).take i0) ≠ []) <;>
        cases hts : st.textStarted <;>
        simp [hdet, hb, hts, h]

def c7Delta : Str := "\x7b\"tool\":\"display_diagram\",\"xml\":\"<a/>\"\x7d".toList

/-! ## C10: no text emission after a tool-input-start -/

/-- Flag invariant: a started tool call always has a detected name
(chat.ts sets them together at lines 473-474 and never clears them). -/
def toolFlagInv (st : SessionState) : Prop :=
  st.toolCallStarted = true → st.detectedToolName.isSome = true

/-- Ordering contract of one step: its events keep text before any
tool-input-start, it emits no tool-input-start unless the flag is (and
stays) set, and after the flag is set it emits no text at all. -/
def OrderStepOK {σ α : Type} (proj : σ → SessionState)
    (f : σ → α → σ × List UiEvent) : Prop :=
  ∀ s x, toolFlagInv (proj s) →
    noTextAfterToolStart (f s x).2 = true ∧
    ((proj (f s x).1).toolCallStarted = false →
      hasToolStart (f s x).2 = false ∧ (proj s).toolCallStarted = false) ∧
    ((proj s).toolCallStarted = true →
      hasTextEmit (f s x).2 = false ∧ (proj (f s x).1).toolCallStarted = true) ∧
    toolFlagInv (proj (f s x).1)

theorem all_not_text_of_no_text {b : List UiEvent} (h : hasTextEmit b = false) :
    b.all (fun e => !(isTextEmit e)) = true := by
  simp only [hasTextEmit, List.any_eq_false] at h
  simp only [List.all_eq_true, Bool.not_eq_true']
  intro x hx
  cases hb : isTextEmit x with
  | false => rfl
  | true => exact absurd hb (h x hx)

theorem noTextAfter_append (a b : List UiEvent)
    (ha : noTextAfterToolStart a = true) (hb : noTextAfterToolStart b = true)
    (hab : hasToolStart a = true → hasTextEmit b = false) :
    noTextAfterToolStart (a ++ b) = true := by
  induction a with
  | nil => simpa using hb
  | cons e a' ih =>
    cases e with
    | toolInputStart n =>
      have htool : hasToolStart (UiEvent.toolInputStart n :: a') = true := by
        simp [hasToolStart, isToolStartEv]
      have hbt := all_not_text_of_no_text (hab htool)
      simp only [noTextAfterToolStart, List.cons_append, List.all_append] at ha ⊢
      simp [ha, hbt]
    | start =>
      refine ih ?_ ?_
      · simpa [noTextAfterToolStart] using ha
      · intro ht
        exact hab (by simpa [hasToolStart, isToolStartEv] using ht)
    | reasoningStart =>
      refine ih (by simpa [noTextAfterToolStart] using ha)
        (fun ht => hab (by simpa [hasToolStart, isToolStartEv] using ht))
    | reasoningDelta d =>
      refine ih (by simpa [noTextAfterToolStart] using ha)
        (fun ht => hab (by simpa [hasToolStart, isToolStartEv] using ht))
    | reasoningEnd =>
      refine ih (by simpa [noTextAfterToolStart] using ha)
        (fun ht => hab (by simpa [hasToolStart, isToolStartEv] using ht))
    | textStart =>
      refine ih (by simpa [noTextAfterToolStart] using ha)
        (fun ht => hab (by simpa [hasToolStart, isToolStartEv] using ht))
    | textDelta d =>
      refine ih (by simpa [noTextAfterToolStart] using ha)
        (fun ht => hab (by simpa [hasToolStart, isToolStartEv] using ht))
    | textEnd =>
      refine ih (by simpa [noTextAfterToolStart] using ha)
        (fun ht => hab (by simpa [hasToolStart, isToolStartEv] using ht))
    | toolInputDelta d =>
      refine ih (by simpa [noTextAfterToolStart] using ha)
        (fun ht => hab (by simpa [hasToolStart, isToolStartEv] using ht))
    | toolInputAvailable n i =>
      refine ih (by simpa [noTextAfterToolStart] using ha)
        (fun ht => hab (by simpa [hasToolStart, isToolStartEv] using ht))
    | finish r =>
      refine ih (by simpa [noTextAfterToolStart] using ha)
        (fun ht => hab (by simpa [hasToolStart, isToolStartEv] using ht))

theorem noTextAfter_of_noToolStart (evs : List UiEvent)
    (h : hasToolStart evs = false) : noTextAfterToolStart evs = true := by
  induction evs with
  | nil => rfl
  | cons e rest ih =>
    have hrest : hasToolStart rest = false := by
      simp only [hasToolStart, List.any_cons, Bool.or_eq_false_iff] at h
      exact h.2
    cases e with
    | toolInputStart n => simp [hasToolStart, isToolStartEv] at h
    | start => exact (by simpa [noTextAfterToolStart] using ih hrest)
    | reasoningStart => exact (by simpa [noTextAfterToolStart] using ih hrest)
    | reasoningDelta d => exact (by simpa [noTextAfterToolStart] using ih hrest)
    | reasoningEnd => exact (by simpa [noTextAfterToolStart] using ih hrest)
    | textStart => exact (by simpa [noTextAfterToolStart] using ih hrest)
    | textDelta d => exact (by simpa [noTextAfterToolStart] using ih hrest)
    | textEnd => exact (by simpa [noTextAfterToolStart] using ih hrest)
    | toolInputDelta d => exact (by simpa [noTextAfterToolStart] using ih hrest)
    | toolInputAvailable n i => exact (by simpa [noTextAfterToolStart] using ih hrest)
    | finish r => exact (by simpa [noTextAfterToolStart] using ih hrest)

theorem contentDelta_orderOK : OrderStepOK id processContentDelta := by
  intro st c hinv
  simp only [id] at hinv ⊢
  cases hst : st.toolCallStarted with
  | true =>
    have hdet := hinv hst
    simp [processContentDelta, hst, noTextAfterToolStart, hasToolStart, hasTextEmit,
      isToolStartEv, isTextEmit, toolFlagInv, hdet]
  | false =>
    simp only [processContentDelta, hst, Bool.false_eq_true, if_false]
    cases hidx : indexOfSub? marker7 (st.pendingBuffer ++ c) with
    | none =>
      by_cases hk : keepFrom (st.pendingBuffer ++ c) > 0
      · by_cases he : jsTrim ((st.pendingBuffer ++ c).take (keepFrom (st.pendingBuffer ++ c))) = [] <;>
          cases hts : st.textStarted <;>
          simp [hk, he, hts, hst, hinv, noTextAfterToolStart, hasToolStart, hasTextEmit,
            isToolStartEv, isTextEmit, toolFlagInv]
      · simp [hk, hst, hinv, noTextAfterToolStart, hasToolStart, hasTextEmit, toolFlagInv]
    | some i0 =>
      cases hdet : detectToolName ((st.pendingBuffer ++ c).drop i0) with
      | none =>
        simp [hdet, hst, hinv, noTextAfterToolStart, hasToolStart, hasTextEmit, toolFlagInv]
      | some name =>
        by_cases hb : (i0 > 0 ∧ jsTrim ((st.pendingBuffer ++ c).take i0) ≠ []) <;>
          cases hts : st.textStarted <;>
          simp [hdet, hb, hts, hst, noTextAfterToolStart, hasToolStart, hasTextEmit,
            isToolStartEv, isTextEmit, toolFlagInv]

theorem dataLine_orderOK : OrderStepOK id processDataLine := by
  intro st data hinv
  simp only [id] at hinv ⊢
  unfold processDataLine
  by_cases hdone : data = doneSentinel
  · simp [hdone, noTextAfterToolStart, hasToolStart, hasTextEmit, hinv]
  rw [if_neg hdone]
  split
  · exact ⟨rfl, fun h => ⟨rfl, h⟩, fun h => ⟨rfl, h⟩, hinv⟩
  split
  · exact ⟨rfl, fun h => ⟨rfl, h⟩, fun h => ⟨rfl, h⟩, hinv⟩
  rename_i parsed hparse delta hdelta
  by_cases htr : jsTruthy delta = true
  case neg =>
    rw [if_neg htr]
    exact ⟨rfl, fun h => ⟨rfl, h⟩, fun h => ⟨rfl, h⟩, hinv⟩
  rw [if_pos htr]
  split
  · exact ⟨rfl, fun h => ⟨rfl, h⟩, fun h => ⟨rfl, h⟩, hinv⟩
  rename_i st1 evs1 hr
  obtain ⟨_, hs1, hd1, _, _, _, hts1, hte1, hnta1⟩ := handleReasoning_frame st delta st1 evs1 hr
  have hinv1 : toolFlagInv st1 := by
    intro hf
    rw [hd1]
    exact hinv (hs1 ▸ hf)
  split
  · rename_i c hc
    by_cases hce : c = []
    · rw [if_neg (by simp [hce])]
      exact ⟨hnta1, fun h => ⟨hts1, hs1.symm.trans h⟩,
        fun h => ⟨hte1, hs1.trans h⟩, hinv1⟩
    · rw [if_pos hce]
      obtain ⟨o1, o2, o3, o4⟩ := contentDelta_orderOK st1 c hinv1
      simp only [id] at o1 o2 o3 o4
      refine ⟨?_, ?_, ?_, o4⟩
      · refine noTextAfter_append evs1 (processContentDelta st1 c).2 hnta1 o1 ?_
        intro ht
        rw [hts1] at ht
        cases ht
      · intro hf
        obtain ⟨p1, p2⟩ := o2 hf
        refine ⟨?_, hs1 ▸ p2⟩
        simp [hasToolStart, List.any_append] at hts1 p1 ⊢
        exact ⟨hts1, p1⟩
      · intro hf
        obtain ⟨p1, p2⟩ := o3 (hs1.symm ▸ hf)
        refine ⟨?_, p2⟩
        simp [hasTextEmit, List.any_append] at hte1 p1 ⊢
        exact ⟨hte1, p1⟩
  · exact ⟨hnta1, fun h => ⟨hts1, hs1.symm.trans h⟩,
      fun h => ⟨hte1, hs1.trans h⟩, hinv1⟩

theorem line_orderOK : OrderStepOK id processLine := by
  intro st l hinv
  simp only [id] at hinv ⊢
  unfold processLine
  dsimp only
  split
  · exact ⟨rfl, fun h => ⟨rfl, h⟩, fun h => ⟨rfl, h⟩, hinv⟩
  · exact dataLine_orderOK st (jsTrim ((jsTrim l).drop 5)) hinv

theorem runSteps_orderOK {σ α : Type} (proj : σ → SessionState)
    (f : σ → α → σ × List UiEvent) (hf : OrderStepOK proj f) :
    OrderStepOK proj (fun s xs => runSteps f s xs) := by
  intro s xs
  induction xs generalizing s with
  | nil =>
    intro hinv
    exact ⟨rfl, fun h => ⟨rfl, h⟩, fun h => ⟨rfl, h⟩, hinv⟩
  | cons x xs ih =>
    intro hinv
    obtain ⟨h1, h2, h3, h4⟩ := hf s x hinv
    obtain ⟨g1, g2, g3, g4⟩ := ih (f s x).1 h4
    refine ⟨?_, ?_, ?_, g4⟩
    · refine noTextAfter_append _ _ h1 g1 ?_
      intro ht
      cases hmid : (proj (f s x).1).toolCallStarted with
      | false => rw [(h2 hmid).1] at ht; cases ht
      | true => exact (g3 hmid).1
    · intro hf2
      obtain ⟨p1, p2⟩ := g2 hf2
      obtain ⟨q1, q2⟩ := h2 p2
      refine ⟨?_, q2⟩
      simp only [runSteps, hasToolStart, List.any_append, Bool.or_eq_false_iff]
      constructor
      · simpa [hasToolStart] using q1
      · simpa [hasToolStart] using p1
    · intro hf2
      obtain ⟨q1, q2⟩ := h3 hf2
      obtain ⟨p1, p2⟩ := g3 q2
      refine ⟨?_, p2⟩
      simp only [runSteps, hasTextEmit, List.any_append, Bool.or_eq_false_iff]
      constructor
      · simpa [hasTextEmit] using q1
      · simpa [hasTextEmit] using p1

theorem networkChunk_orderOK : OrderStepOK Prod.fst processNetworkChunk := by
  intro ns chunk hinv
  unfold processNetworkChunk
  exact runSteps_orderOK id processLine line_orderOK ns.1
    (splitOnNl (ns.2 ++ chunk)).dropLast hinv

theorem finalize_noToolStart (st : SessionState) :
    hasToolStart (finalizeStream st) = false := by
  unfold finalizeStream
  dsimp only
  repeat' split
  all_goals rfl

theorem finalize_tool_noText (st : SessionState)
    (h1 : st.toolCallStarted = true) (h2 : st.detectedToolName.isSome = true) :
    hasTextEmit (finalizeStream st) = false := by
  unfold finalizeStream
  dsimp only
  rw [if_pos (show st.toolCallStarted = true ∧ st.detectedToolName.isSome = true
    from ⟨h1, h2⟩)]
  repeat' split
  all_goals rfl

/-- C10: over a whole session (start event, all chunk processing, and the
finalizer) every text-start and text-delta event precedes any
tool-input-start event; once the tool call relay begins no further
narration is emitted. -/
theorem text_precedes_tool_start (chunks : List Str) :
    noTextAfterToolStart (runSession chunks).2 = true := by
  have hrun := runSteps_orderOK Prod.fst processNetworkChunk networkChunk_orderOK
    (initState, []) chunks (by intro h; exact absurd h (by decide))
  obtain ⟨h1, h2, h3, h4⟩ := hrun
  unfold runSession
  dsimp only
  rw [show ∀ X, noTextAfterToolStart (UiEvent.start :: X) = noTextAfterToolStart X
    from fun X => rfl]
  refine noTextAfter_append _ _ h1
    (noTextAfter_of_noToolStart _ (finalize_noToolStart _)) ?_
  intro ht
  cases hfin : (runSteps processNetworkChunk (initState, []) chunks).1.1.toolCallStarted with
  | false => rw [(h2 hfin).1] at ht; cases ht
  | true => exact finalize_tool_noText _ hfin (h4 hfin)

theorem guarded_mode_transition_witness :
    ((∃ n, UiEvent.toolInputStart n ∈ (processContentDelta initState c7Delta).2) ↔
      (∃ i, indexOfSub? marker7 (initState.pendingBuffer ++ c7Delta) = some i ∧
        (detectToolName ((initState.pendingBuffer ++ c7Delta).drop i)).isSome = true)) ∧
    ((processContentDelta initState c7Delta).1.toolCallStarted = true ↔
      (∃ i, indexOfSub? marker7 (initState.pendingBuffer ++ c7Delta) = some i ∧
        (detectToolName ((initState.pendingBuffer ++ c7Delta).drop i)).isSome = true)) ∧
    (∀ i, indexOfSub? marker7 (initState.pendingBuffer ++ c7Delta) = some i →
      detectToolName ((initState.pendingBuffer ++ c7Delta).drop i) = none →
      (processContentDelta initState c7Delta).1.pendingBuffer = initState.pendingBuffer ++ c7Delta ∧
      (processContentDelta initState c7Delta).2 = [] ∧
      (processContentDelta initState c7Delta).1.toolCallStarted = false) :=
  guarded_mode_transition initState c7Delta rfl

theorem update_idempotent_witness :
    (applyDiagramOperations c9Doc
        [⟨DiagramOpType.update, ['a'], ['z']⟩, ⟨DiagramOpType.update, ['a'], ['z']⟩]).1 =
      (applyDiagramOperations c9Doc [⟨DiagramOpType.update, ['a'], ['z']⟩]).1 ∧
    (applyDiagramOperations c9Doc [⟨DiagramOpType.update, ['a'], ['z']⟩]).2 = [] ∧
    (applyDiagramOperations c9Doc
        [⟨DiagramOpType.update, ['a'], ['z']⟩, ⟨DiagramOpType.update, ['a'], ['z']⟩]).2 = [] :=
  update_idempotent c9Doc ['a'] ['z'] ⟨⟨['a'], ['x']⟩, by decide, rfl⟩

end S2P
